import Mathlib

set_option maxHeartbeats 1000000

/-!
Verification development for a sparse Conway's Game of Life engine on
64-bit signed coordinates (`GoL.py`).  The Python source is shallowly
embedded: mutable state becomes explicit state passing, Python `set`s of
`Cell` objects become lists of cells with point-based membership (the
source customises `__eq__`/`__hash__` to compare by point only), the
`dict` neighbor tally becomes an insertion-ordered association list, and
fallible constructors return `Except`.  A small explicit-heap model at
the end captures the object-identity facts (`set.copy()` is shallow,
cells are mutated in place) needed for the framing claim.
-/

/-! ## Core data model (Point, Cell, tally) -/

def INT64_MAX : Int := 2 ^ 63 - 1

def INT64_MIN : Int := -(2 ^ 63)

structure Point where
  x : Int
  y : Int
deriving DecidableEq

/-- The range test performed by `Point.__init__` (in the source's order:
`x <= MAX and x >= MIN and y <= MAX and y >= MIN`). -/
def inRangeXY (x y : Int) : Bool :=
  decide (x ≤ INT64_MAX) && decide (INT64_MIN ≤ x) &&
  decide (y ≤ INT64_MAX) && decide (INT64_MIN ≤ y)

def Point.inRange (p : Point) : Bool := inRangeXY p.x p.y

/-- `Point.__init__`: raises when a coordinate is outside the signed
64-bit range, otherwise yields the point. -/
def mkPoint (x y : Int) : Except String Point :=
  if inRangeXY x y then .ok ⟨x, y⟩
  else .error "X and Y coordinates must be within the 64-bit signed integer range."

structure Cell where
  point : Point
  isNextGenAlive : Option Bool
deriving DecidableEq

/-- The neighbor-count dictionary `deadCellNeighborCounts`, as an
insertion-ordered association list (Python dicts preserve insertion
order; updating an existing key keeps its position, a new key is
appended). -/
abbrev Tally := List (Point × Nat)

def tallyGet? : Tally → Point → Option Nat
  | [], _ => none
  | e :: t, k => if e.1 = k then some e.2 else tallyGet? t k

/-- `self.deadCellNeighborCounts[neighbor] += 1` with initialization to 1
when the key is absent. -/
def tallyIncr : Tally → Point → Tally
  | [], k => [(k, 1)]
  | e :: t, k => if e.1 = k then (e.1, e.2 + 1) :: t else e :: tallyIncr t k

/-- Membership of a point in a Python `set` of `Cell`s: the source's
`Cell.__eq__`/`__hash__` compare by point only, so `neighbor in
self.liveCells` is a point-membership test. -/
def memLive (cells : List Cell) (p : Point) : Bool :=
  cells.any (fun c => c.point = p)

/-! ## The stepping algorithm -/

/-- The eight direction offsets of `getLiveNeighbors`, in source order. -/
def directions : List Point :=
  [⟨1, 0⟩, ⟨1, 1⟩, ⟨0, 1⟩, ⟨-1, 1⟩, ⟨-1, 0⟩, ⟨-1, -1⟩, ⟨0, -1⟩, ⟨1, -1⟩]

def padd (p d : Point) : Point := ⟨p.x + d.x, p.y + d.y⟩

/-- Body of the direction loop of `getLiveNeighbors`: the accumulator is
the running live count paired with the current tally. -/
def glnStep (cells : List Cell) (point : Point) (acc : Nat × Tally) (d : Point) :
    Nat × Tally :=
  let x := point.x + d.x
  let y := point.y + d.y
  if inRangeXY x y then
    let neighbor : Point := ⟨x, y⟩
    if memLive cells neighbor then (acc.1 + 1, acc.2)
    else (acc.1, tallyIncr acc.2 neighbor)
  else acc

/-- `GameOfLife.getLiveNeighbors`: returns the live-neighbor count and the
updated tally (the Python method mutates `self.deadCellNeighborCounts`). -/
def getLiveNeighbors (cells : List Cell) (point : Point) (tally : Tally) :
    Nat × Tally :=
  directions.foldl (glnStep cells point) (0, tally)

/-- `lc.isNextGenAlive = ...` on the unique cell (by point) of a set. -/
def setFlag (cells : List Cell) (p : Point) (b : Bool) : List Cell :=
  cells.map (fun c => if c.point = p then ⟨c.point, some b⟩ else c)

/-- Body of the `for lc in self.liveCells` loop of `calculateNextGen`. -/
def cngStep (acc : List Cell × Tally) (p : Point) : List Cell × Tally :=
  let r := getLiveNeighbors acc.1 p acc.2
  (setFlag acc.1 p (r.1 == 2 || r.1 == 3), r.2)

/-- `GameOfLife.calculateNextGen`: iterates over the live cells, sets each
cell's `isNextGenAlive` flag and accumulates the dead-neighbor tally. -/
def calculateNextGen (cells : List Cell) (tally : Tally) : List Cell × Tally :=
  (cells.map Cell.point).foldl cngStep (cells, tally)

/-- `GameOfLife.removeDeadCells`: collect the cells flagged `False` and
remove them (set difference removes by point equality). -/
def removeDeadCells (cells : List Cell) : List Cell :=
  let deadPts := (cells.filter (fun c => c.isNextGenAlive == some false)).map Cell.point
  cells.filter (fun c => !(deadPts.contains c.point))

/-- `set.add`: a no-op when a cell with an equal point is present,
otherwise the new object is inserted. -/
def setAdd (cells : List Cell) (c : Cell) : List Cell :=
  if memLive cells c.point then cells else cells ++ [c]

/-- `GameOfLife.createNewCells`: every tallied coordinate with exactly 3
live neighbors is added as `Cell(k, True)`; the tally is then cleared. -/
def createNewCells (cells : List Cell) (tally : Tally) : List Cell × Tally :=
  ((tally.filter (fun e => e.2 == 3)).foldl
      (fun cs e => setAdd cs ⟨e.1, some true⟩) cells,
   [])

/-- `GameOfLife.resetNextGen`: clear every surviving cell's flag. -/
def resetNextGen (cells : List Cell) : List Cell :=
  cells.map (fun c => ⟨c.point, none⟩)

structure GameOfLife where
  liveCells : List Cell
  deadCellNeighborCounts : Tally
  numOfGenerations : Int
  currentGeneration : Int
deriving DecidableEq

/-- `GameOfLife.__init__`: rejects a negative generation count, copies the
caller's set and starts at generation 0 with an empty tally. -/
def GameOfLife.init (initialLiveCells : List Cell) (numOfGenerations : Int) :
    Except String GameOfLife :=
  if numOfGenerations < 0 then
    .error "Number of generations to run through must be zero or positive."
  else
    .ok { liveCells := initialLiveCells
          deadCellNeighborCounts := []
          numOfGenerations := numOfGenerations
          currentGeneration := 0 }

/-- `GameOfLife.runNextGeneration`: the four phases, then the generation
counter advances by one. -/
def runNextGeneration (g : GameOfLife) : GameOfLife :=
  let r := calculateNextGen g.liveCells g.deadCellNeighborCounts
  let cells2 := removeDeadCells r.1
  let r3 := createNewCells cells2 r.2
  { liveCells := resetNextGen r3.1
    deadCellNeighborCounts := r3.2
    numOfGenerations := g.numOfGenerations
    currentGeneration := g.currentGeneration + 1 }

/-- `GameOfLife.runGenerations`: `while currentGeneration < numOfGenerations`. -/
def runGenerations (g : GameOfLife) : GameOfLife :=
  if g.currentGeneration < g.numOfGenerations then
    runGenerations (runNextGeneration g)
  else g
termination_by (g.numOfGenerations - g.currentGeneration).toNat
decreasing_by
  simp only [runNextGeneration]
  omega

/-! ## Derived counting notions used to state the claims -/

/-- `q` is one of the eight neighbor positions generated from `p`. -/
def isNbrOf (p k : Point) : Bool :=
  directions.any (fun d => padd p d == k)

/-- The spec-level adjacency relation: distinct points whose coordinates
differ by at most one in each component. -/
def Point.adjacent (q p : Point) : Bool :=
  (q != p) && decide ((q.x - p.x).natAbs ≤ 1) && decide ((q.y - p.y).natAbs ≤ 1)

/-- Number of live cells that are in-range neighbors of `p`. -/
def liveNbrCount (cells : List Cell) (p : Point) : Nat :=
  (cells.filter (fun c => c.point.inRange && Point.adjacent c.point p)).length

/-- Number of live cells that are neighbors of `p` (no range filter). -/
def adjCount (cells : List Cell) (p : Point) : Nat :=
  (cells.filter (fun c => Point.adjacent c.point p)).length

/-- Option-valued counter addition: the result of piling `m` further
increments onto an optional tally entry. -/
def addCnt (o : Option Nat) (m : Nat) : Option Nat :=
  match o with
  | some v => some (v + m)
  | none => if m = 0 then none else some m

/-- The NeighborTally invariant of the spec: every key is a dead (w.r.t.
the pre-step live set) coordinate and every value lies in `[1, 8]`. -/
def tallyInv (cells : List Cell) (t : Tally) : Prop :=
  ∀ k v, tallyGet? t k = some v → memLive cells k = false ∧ 1 ≤ v ∧ v ≤ 8

def pointsOf (cells : List Cell) : Finset Point :=
  (cells.map Cell.point).toFinset

/-- The live-neighbor count computed by `getLiveNeighbors` (the number of
direction offsets whose in-range target is live). -/
def dirLiveCount (cells : List Cell) (p : Point) : Nat :=
  directions.countP
    (fun d => inRangeXY (p.x + d.x) (p.y + d.y) && memLive cells (padd p d))

/-- The number of increments the processing of live point `p` contributes
to the tally entry of `k`. -/
def dirTallyCnt (cells : List Cell) (p k : Point) : Nat :=
  directions.countP
    (fun d => padd p d == k && inRangeXY (p.x + d.x) (p.y + d.y) &&
      !memLive cells (padd p d))

/-- Total number of increments the points `ps` contribute to the tally
entry of `k`. -/
def sumTallyCnt (cells : List Cell) (ps : List Point) (k : Point) : Nat :=
  (ps.map (fun p => dirTallyCnt cells p k)).sum

/-- The survival flag `numLiveNeighbors in {2,3}` written by phase 1. -/
def survFlag (cells : List Cell) (p : Point) : Bool :=
  dirLiveCount cells p == 2 || dirLiveCount cells p == 3

/-! ## Except-valued embedding (tracks `Point` constructor failures)

The pure functions above already bake in that the guarded `Point(x, y)`
constructions inside `getLiveNeighbors` succeed.  The `E` variants below
thread every `Point` construction through `Except`, so that "stepping
never raises" is a theorem rather than a modelling assumption. -/

def directionsE : Except String (List Point) := do
  let d1 ← mkPoint 1 0
  let d2 ← mkPoint 1 1
  let d3 ← mkPoint 0 1
  let d4 ← mkPoint (-1) 1
  let d5 ← mkPoint (-1) 0
  let d6 ← mkPoint (-1) (-1)
  let d7 ← mkPoint 0 (-1)
  let d8 ← mkPoint 1 (-1)
  pure [d1, d2, d3, d4, d5, d6, d7, d8]

def glnStepE (cells : List Cell) (point : Point) (acc : Nat × Tally) (d : Point) :
    Except String (Nat × Tally) := do
  let x := point.x + d.x
  let y := point.y + d.y
  if inRangeXY x y then
    let neighbor ← mkPoint x y
    if memLive cells neighbor then pure (acc.1 + 1, acc.2)
    else pure (acc.1, tallyIncr acc.2 neighbor)
  else pure acc

def getLiveNeighborsE (cells : List Cell) (point : Point) (tally : Tally) :
    Except String (Nat × Tally) := do
  let dirs ← directionsE
  dirs.foldlM (glnStepE cells point) (0, tally)

def calculateNextGenE (cells : List Cell) (tally : Tally) :
    Except String (List Cell × Tally) :=
  (cells.map Cell.point).foldlM
    (fun acc p => do
      let r ← getLiveNeighborsE acc.1 p acc.2
      pure (setFlag acc.1 p (r.1 == 2 || r.1 == 3), r.2))
    (cells, tally)

def runNextGenerationE (g : GameOfLife) : Except String GameOfLife := do
  let r ← calculateNextGenE g.liveCells g.deadCellNeighborCounts
  let cells2 := removeDeadCells r.1
  let r3 := createNewCells cells2 r.2
  pure { liveCells := resetNextGen r3.1
         deadCellNeighborCounts := r3.2
         numOfGenerations := g.numOfGenerations
         currentGeneration := g.currentGeneration + 1 }

/-! ## Life 1.06 text format (`__str__` / `readLiveCellFile`)

Text is modelled as `List Char`; a file's contents as produced by
`readlines` is a `List (List Char)` of lines, each keeping its trailing
newline.  Python's `int()` is modelled on its decimal grammar (optional
surrounding whitespace, optional sign, nonempty digit run with single
underscores allowed between digits). -/

/-- Python's whitespace predicate (CPython `Py_UNICODE_ISSPACE`, the
characters for which `str.isspace()` holds), used by `str.strip()` and
by `int()` for surrounding whitespace: the ASCII whitespace 0x09–0x0D,
0x1C–0x1F and space, plus NEL, NO-BREAK SPACE, OGHAM SPACE MARK, the EN
QUAD … HAIR SPACE block, LINE and PARAGRAPH SEPARATOR, NARROW NO-BREAK
SPACE, MEDIUM MATHEMATICAL SPACE and IDEOGRAPHIC SPACE. -/
def isPySpace (c : Char) : Bool :=
  [32, 9, 10, 13, 11, 12, 28, 29, 30, 31,
   0x85, 0xA0, 0x1680,
   0x2000, 0x2001, 0x2002, 0x2003, 0x2004, 0x2005, 0x2006, 0x2007,
   0x2008, 0x2009, 0x200A, 0x2028, 0x2029, 0x202F, 0x205F,
   0x3000].contains c.toNat

def dropTrail (l : List Char) : List Char :=
  (l.reverse.dropWhile isPySpace).reverse

/-- Python `str.strip()`. -/
def pyStrip (l : List Char) : List Char :=
  dropTrail (l.dropWhile isPySpace)

/-- The whitespace `int()` strips around a numeric literal.  CPython
first maps every non-ASCII whitespace character to a space (and every
non-ASCII decimal digit to its ASCII digit) and then parses the result
against the ASCII space set 0x09–0x0D and 0x20 — so the ASCII
separators 0x1C–0x1F, although whitespace for `str.strip()`, are
rejected by `int()`, while all non-ASCII Unicode whitespace is
accepted. -/
def isIntSpace (c : Char) : Bool :=
  isPySpace c && !([28, 29, 30, 31].contains c.toNat)

/-- The whitespace stripping `int()` applies around the literal. -/
def pyIntStrip (l : List Char) : List Char :=
  ((l.dropWhile isIntSpace).reverse.dropWhile isIntSpace).reverse

/-- Python `str.split(" ")`: splits at every single space, keeping empty
pieces; the result is always nonempty. -/
def splitSp : List Char → List (List Char)
  | [] => [[]]
  | c :: rest =>
    if c = ' ' then [] :: splitSp rest
    else
      match splitSp rest with
      | [] => [[c]]
      | t :: ts => (c :: t) :: ts

def isDigitCh (c : Char) : Bool :=
  decide (48 ≤ c.toNat) && decide (c.toNat ≤ 57)

def digitCh (d : Nat) : Char := Char.ofNat (48 + d)

def digitsValAux : Nat → List Char → Option Nat
  | acc, [] => some acc
  | acc, c :: cs =>
    if isDigitCh c then digitsValAux (acc * 10 + (c.toNat - 48)) cs else none

/-- The rest of Python `int()`'s digit run after its first digit: ASCII
digits in which single underscores may appear, each strictly between two
digits (`1_2` is 12; `_1`, `1_` and `1__2` are rejected). -/
def digitsValU : Nat → List Char → Option Nat
  | acc, [] => some acc
  | acc, [c] =>
    if isDigitCh c then some (acc * 10 + (c.toNat - 48)) else none
  | acc, c :: d :: cs =>
    if isDigitCh c then digitsValU (acc * 10 + (c.toNat - 48)) (d :: cs)
    else if c = '_' then
      if isDigitCh d then digitsValU acc (d :: cs) else none
    else none

/-- Value of a digit run: nonempty, starting with a digit, with single
underscores allowed strictly between digits. -/
def digitsVal? (ds : List Char) : Option Nat :=
  match ds with
  | [] => none
  | c :: cs => if isDigitCh c then digitsValU (c.toNat - 48) cs else none

/-- Python `int(s)` on a decimal string literal: optional surrounding
whitespace, an optional single sign, then a nonempty run of digits with
single underscores allowed between digits.  (Python additionally maps
non-ASCII decimal digits, Unicode category Nd, to their values; claims
stated through this model are restricted to ASCII input.) -/
def pyInt? (s : List Char) : Option Int :=
  match pyIntStrip s with
  | [] => none
  | c :: ds =>
    if c = '-' then (digitsVal? ds).map (fun n => -(n : Int))
    else if c = '+' then (digitsVal? ds).map (fun n => (n : Int))
    else (digitsVal? (c :: ds)).map (fun n => (n : Int))

/-- Decimal rendering of a natural number (Python `str` on a nonnegative
int); fuel-indexed so that it is structurally recursive. -/
def natChars : Nat → Nat → List Char
  | 0, _ => []
  | fuel + 1, n =>
    if n < 10 then [digitCh n]
    else natChars fuel (n / 10) ++ [digitCh (n % 10)]

def natStr (n : Nat) : List Char := natChars (n + 1) n

/-- Python `str` on an int. -/
def intStr (i : Int) : List Char :=
  if i < 0 then '-' :: natStr (-i).toNat else natStr i.toNat

def headerChars : List Char := "#Life 1.06".toList

/-- One line of `GameOfLife.__str__`: `str(x) + " " + str(y) + "\n"`. -/
def cellLine (c : Cell) : List Char :=
  intStr c.point.x ++ ' ' :: intStr c.point.y ++ ['\n']

/-- `GameOfLife.__str__`: header line then one line per live cell. -/
def golStr (g : GameOfLife) : List Char :=
  g.liveCells.foldl (fun acc c => acc ++ cellLine c) (headerChars ++ ['\n'])

/-- `file.readlines()`: split text into lines, each keeping its
terminating newline (a last unterminated line is kept as well). -/
def linesOfChars : List Char → List (List Char)
  | [] => []
  | c :: rest =>
    if c = '\n' then ['\n'] :: linesOfChars rest
    else
      match linesOfChars rest with
      | [] => [[c]]
      | l :: ls => (c :: l) :: ls

/-- Parsing of one coordinate line:
`Cell(Point(int(coords[0]), int(coords[1])))`, with Python's evaluation
order: `int(coords[0])` first (`coords[0]` always exists since `split`
returns a nonempty list), then the `coords[1]` lookup, then
`int(coords[1])`, then the `Point` range check. -/
def parseLine (line : List Char) : Except String Point :=
  match pyInt? ((splitSp line).headD []) with
  | none => .error "ValueError: invalid literal for int"
  | some x =>
    match (splitSp line)[1]? with
    | none => .error "IndexError: list index out of range"
    | some t1 =>
      match pyInt? t1 with
      | none => .error "ValueError: invalid literal for int"
      | some y => mkPoint x y

def addLine (acc : List Cell) (line : List Char) : Except String (List Cell) := do
  let p ← parseLine line
  pure (setAdd acc ⟨p, none⟩)

/-- `readLiveCellFile` on the list of lines of the file: header check via
`lines[0].strip()`, then every subsequent line is parsed and added. -/
def readLiveCellFile (lines : List (List Char)) : Except String (List Cell) :=
  match lines with
  | [] => Except.error "IndexError: list index out of range"
  | l0 :: rest =>
    if pyStrip l0 = headerChars then rest.foldlM addLine []
    else Except.error "Life files must be in Life 1.06 format and contain the header"

/-- An ASCII-only line.  Python's `int()` additionally accepts non-ASCII
decimal digits (Unicode category Nd), which the decimal grammar here
does not model; on ASCII text the model is exact. -/
def asciiOnly (line : List Char) : Bool :=
  line.all (fun c => c.toNat < 128)

/-- A line whose first two space-separated tokens are integer literals
(no range restriction). -/
def hasTwoIntTokens (line : List Char) : Bool :=
  match (splitSp line)[1]? with
  | none => false
  | some t1 => (pyInt? ((splitSp line).headD [])).isSome && (pyInt? t1).isSome

/-- A line whose first two space-separated tokens are integer literals
within the signed 64-bit range. -/
def goodLineB (line : List Char) : Bool :=
  match (splitSp line)[1]? with
  | none => false
  | some t1 =>
    match pyInt? ((splitSp line).headD []) with
    | none => false
    | some x =>
      match pyInt? t1 with
      | none => false
      | some y => inRangeXY x y

/-! ## Explicit-heap model (object identity and aliasing)

`GameOfLife.__init__` does `initialLiveCells.copy()` — a *shallow* copy:
the simulator's set is a fresh set object holding the same `Cell`
objects.  To reason about what happens to the set the caller passed in,
cells are modelled as heap ids; a Python set of cells is a list of ids;
flag mutation and `Cell` allocation act on the heap. -/

structure Heap where
  cells : List (Nat × Cell)
  fresh : Nat

def heapGet (h : Heap) (i : Nat) : Option Cell :=
  (h.cells.find? (fun e => e.1 == i)).map Prod.snd

def pointOfId (h : Heap) (i : Nat) : Option Point :=
  (heapGet h i).map Cell.point

/-- In-place mutation `lc.isNextGenAlive = b` of the object with id `i`. -/
def heapSetFlag (h : Heap) (i : Nat) (b : Option Bool) : Heap :=
  { h with cells := h.cells.map (fun e => if e.1 = i then (e.1, ⟨e.2.point, b⟩) else e) }

/-- Allocation of a fresh `Cell` object. -/
def heapAlloc (h : Heap) (c : Cell) : Heap × Nat :=
  ({ cells := h.cells ++ [(h.fresh, c)], fresh := h.fresh + 1 }, h.fresh)

/-- Point-membership of a set of cell ids (Python `in`, by point). -/
def memLiveH (h : Heap) (ids : List Nat) (p : Point) : Bool :=
  ids.any (fun i => (pointOfId h i) == some p)

structure GameOfLifeH where
  liveCells : List Nat
  deadCellNeighborCounts : Tally
  numOfGenerations : Int
  currentGeneration : Int

/-- `GameOfLife.__init__` at the heap level: the shallow `copy()` yields a
new set object containing the same ids. -/
def GameOfLifeH.init (callerIds : List Nat) (numOfGenerations : Int) :
    Except String GameOfLifeH :=
  if numOfGenerations < 0 then
    .error "Number of generations to run through must be zero or positive."
  else
    .ok { liveCells := callerIds
          deadCellNeighborCounts := []
          numOfGenerations := numOfGenerations
          currentGeneration := 0 }

def glnStepH (h : Heap) (ids : List Nat) (point : Point) (acc : Nat × Tally)
    (d : Point) : Nat × Tally :=
  let x := point.x + d.x
  let y := point.y + d.y
  if inRangeXY x y then
    let neighbor : Point := ⟨x, y⟩
    if memLiveH h ids neighbor then (acc.1 + 1, acc.2)
    else (acc.1, tallyIncr acc.2 neighbor)
  else acc

def getLiveNeighborsH (h : Heap) (ids : List Nat) (point : Point) (tally : Tally) :
    Nat × Tally :=
  directions.foldl (glnStepH h ids point) (0, tally)

/-- One iteration of the `calculateNextGen` loop at the heap level. -/
def cngStepH (ids : List Nat) (acc : Heap × Tally) (i : Nat) : Heap × Tally :=
  match heapGet acc.1 i with
  | none => acc
  | some c =>
    let r := getLiveNeighborsH acc.1 ids c.point acc.2
    (heapSetFlag acc.1 i (some (r.1 == 2 || r.1 == 3)), r.2)

/-- `calculateNextGen` at the heap level: each live cell's flag is mutated
in place on the shared heap. -/
def calculateNextGenH (h : Heap) (ids : List Nat) (tally : Tally) : Heap × Tally :=
  ids.foldl (cngStepH ids) (h, tally)

def removeDeadCellsH (h : Heap) (ids : List Nat) : List Nat :=
  let deadPts :=
    (ids.filter (fun i =>
      match heapGet h i with
      | some c => c.isNextGenAlive == some false
      | none => false)).filterMap (fun i => pointOfId h i)
  ids.filter (fun i =>
    match pointOfId h i with
    | some p => !(deadPts.contains p)
    | none => true)

def setAddH (h : Heap) (ids : List Nat) (c : Cell) : Heap × List Nat :=
  if memLiveH h ids c.point then (h, ids)
  else
    let a := heapAlloc h c
    (a.1, ids ++ [a.2])

def createNewCellsH (h : Heap) (ids : List Nat) (tally : Tally) :
    Heap × List Nat × Tally :=
  let r := (tally.filter (fun e => e.2 == 3)).foldl
    (fun acc e =>
      let a := setAddH acc.1 acc.2 ⟨e.1, some true⟩
      (a.1, a.2))
    (h, ids)
  (r.1, r.2, [])

def resetNextGenH (h : Heap) (ids : List Nat) : Heap :=
  ids.foldl (fun hh i => heapSetFlag hh i none) h

def runNextGenerationH (h : Heap) (g : GameOfLifeH) : Heap × GameOfLifeH :=
  let r1 := calculateNextGenH h g.liveCells g.deadCellNeighborCounts
  let ids2 := removeDeadCellsH r1.1 g.liveCells
  let r3 := createNewCellsH r1.1 ids2 r1.2
  let h4 := resetNextGenH r3.1 r3.2.1
  (h4,
   { liveCells := r3.2.1
     deadCellNeighborCounts := r3.2.2
     numOfGenerations := g.numOfGenerations
     currentGeneration := g.currentGeneration + 1 })

def runGenerationsH (h : Heap) (g : GameOfLifeH) : Heap × GameOfLifeH :=
  if g.currentGeneration < g.numOfGenerations then
    let r := runNextGenerationH h g
    runGenerationsH r.1 r.2
  else (h, g)
termination_by (g.numOfGenerations - g.currentGeneration).toNat
decreasing_by
  simp only [runNextGenerationH]
  omega

/-- How one heap state may evolve into another during a step: the
allocator only moves forward, well-formedness (all ids below the
allocator mark) is preserved, and the point of every previously
allocated object is unchanged (only flags are mutated in place and fresh
cells appended). -/
def heapEvolves (h h' : Heap) : Prop :=
  h.fresh ≤ h'.fresh ∧
  ((∀ e ∈ h.cells, e.1 < h.fresh) → ∀ e ∈ h'.cells, e.1 < h'.fresh) ∧
  (∀ j, j < h.fresh → pointOfId h' j = pointOfId h j)

/-! ## Basic stepping lemmas -/

theorem runGenerations_eq (g : GameOfLife) :
    runGenerations g =
      if g.currentGeneration < g.numOfGenerations then
        runGenerations (runNextGeneration g)
      else g := by
  rw [runGenerations]

theorem currentGeneration_runNextGeneration (g : GameOfLife) :
    (runNextGeneration g).currentGeneration = g.currentGeneration + 1 := rfl

theorem numOfGenerations_runNextGeneration (g : GameOfLife) :
    (runNextGeneration g).numOfGenerations = g.numOfGenerations := rfl

theorem runGenerations_iterate :
    ∀ (m : Nat) (g : GameOfLife),
      (g.numOfGenerations - g.currentGeneration).toNat = m →
      runGenerations g = runNextGeneration^[m] g := by
  intro m
  induction m with
  | zero =>
    intro g hm
    rw [runGenerations_eq, if_neg (by omega)]
    rfl
  | succ k ih =>
    intro g hm
    have hlt : g.currentGeneration < g.numOfGenerations := by omega
    rw [runGenerations_eq, if_pos hlt,
      ih (runNextGeneration g)
        (by
          rw [currentGeneration_runNextGeneration, numOfGenerations_runNextGeneration]
          omega),
      ← Function.iterate_succ_apply]

theorem currentGeneration_iterate (m : Nat) (g : GameOfLife) :
    (runNextGeneration^[m] g).currentGeneration = g.currentGeneration + m := by
  induction m generalizing g with
  | zero => simp
  | succ k ih =>
    rw [Function.iterate_succ_apply, ih, currentGeneration_runNextGeneration]
    push_cast
    ring

/-- Claim C9: every call to `runNextGeneration` advances
`currentGeneration` by exactly 1, and for every generation count `n ≥ 0`
a simulator built by `GameOfLife.init` runs exactly `n` steps (its run is
the `n`-fold iterate of the step function) and ends with
`currentGeneration = n`. -/
theorem claim_C9 :
    (∀ g : GameOfLife,
      (runNextGeneration g).currentGeneration = g.currentGeneration + 1) ∧
    (∀ (cells : List Cell) (n : Int) (g : GameOfLife),
      0 ≤ n → GameOfLife.init cells n = .ok g →
      runGenerations g = runNextGeneration^[n.toNat] g ∧
      (runGenerations g).currentGeneration = n) := by
  refine ⟨fun g => rfl, fun cells n g hn hinit => ?_⟩
  unfold GameOfLife.init at hinit
  rw [if_neg (by omega)] at hinit
  have hg : g = { liveCells := cells, deadCellNeighborCounts := [],
                  numOfGenerations := n, currentGeneration := 0 } :=
    (Except.ok.inj hinit).symm
  subst hg
  have hiter := runGenerations_iterate n.toNat
    { liveCells := cells, deadCellNeighborCounts := [],
      numOfGenerations := n, currentGeneration := 0 } (by simp)
  refine ⟨hiter, ?_⟩
  rw [hiter, currentGeneration_iterate]
  simp
  omega

theorem claim_C9_witness :
    runGenerations
        { liveCells := [], deadCellNeighborCounts := [],
          numOfGenerations := 2, currentGeneration := 0 } =
      runNextGeneration^[(2 : Int).toNat]
        { liveCells := [], deadCellNeighborCounts := [],
          numOfGenerations := 2, currentGeneration := 0 } ∧
    (runGenerations
        { liveCells := [], deadCellNeighborCounts := [],
          numOfGenerations := 2, currentGeneration := 0 }).currentGeneration = 2 :=
  claim_C9.2 [] 2 _ (by decide) rfl

/-- Claim C5: a simulation constructed with generation count 0 returns
the input live set unchanged. -/
theorem claim_C5 :
    ∀ cells : List Cell, ∃ g : GameOfLife,
      GameOfLife.init cells 0 = .ok g ∧ (runGenerations g).liveCells = cells := by
  intro cells
  refine ⟨_, rfl, ?_⟩
  rw [runGenerations_eq, if_neg (show ¬(0 : Int) < 0 by omega)]

/-- Claim C7: `Point` construction fails exactly when a coordinate is
outside `[MIN_I64, MAX_I64]`, and simulator construction fails exactly
when the generation count is negative; in-range/non-negative
construction succeeds.  Both checks happen at construction time. -/
theorem claim_C7 :
    ∀ (x y : Int) (cells : List Cell) (n : Int),
      ((∃ p, mkPoint x y = .ok p) ↔
        (INT64_MIN ≤ x ∧ x ≤ INT64_MAX ∧ INT64_MIN ≤ y ∧ y ≤ INT64_MAX)) ∧
      ((∃ e, mkPoint x y = .error e) ↔
        ¬(INT64_MIN ≤ x ∧ x ≤ INT64_MAX ∧ INT64_MIN ≤ y ∧ y ≤ INT64_MAX)) ∧
      ((∃ g, GameOfLife.init cells n = .ok g) ↔ 0 ≤ n) ∧
      ((∃ e, GameOfLife.init cells n = .error e) ↔ n < 0) := by
  intro x y cells n
  have hr : (inRangeXY x y = true) ↔
      (INT64_MIN ≤ x ∧ x ≤ INT64_MAX ∧ INT64_MIN ≤ y ∧ y ≤ INT64_MAX) := by
    simp only [inRangeXY, Bool.and_eq_true, decide_eq_true_eq]
    tauto
  have hinit :
      ((∃ g, GameOfLife.init cells n = .ok g) ↔ 0 ≤ n) ∧
      ((∃ e, GameOfLife.init cells n = .error e) ↔ n < 0) := by
    by_cases hn : n < 0
    · have he : GameOfLife.init cells n =
          .error "Number of generations to run through must be zero or positive." := by
        rw [GameOfLife.init, if_pos hn]
      refine ⟨⟨?_, fun h0 => absurd hn (by omega)⟩, fun _ => hn, fun _ => ⟨_, he⟩⟩
      rintro ⟨g, hg⟩
      rw [he] at hg
      exact Except.noConfusion hg
    · refine ⟨⟨fun _ => by omega,
        fun _ => ⟨_, by rw [GameOfLife.init, if_neg hn]⟩⟩, ?_, fun hlt => absurd hlt hn⟩
      rintro ⟨e, he⟩
      rw [GameOfLife.init, if_neg hn] at he
      exact Except.noConfusion he
  by_cases h : inRangeXY x y = true
  · have hok : mkPoint x y = .ok ⟨x, y⟩ := by rw [mkPoint, if_pos h]
    refine ⟨⟨fun _ => hr.mp h, fun _ => ⟨⟨x, y⟩, hok⟩⟩, ⟨?_, fun hc => absurd (hr.mp h) hc⟩,
      hinit.1, hinit.2⟩
    rintro ⟨e, he⟩
    rw [hok] at he
    exact Except.noConfusion he
  · have herr : mkPoint x y =
        .error "X and Y coordinates must be within the 64-bit signed integer range." := by
      rw [mkPoint, if_neg h]
    have hnr : ¬(INT64_MIN ≤ x ∧ x ≤ INT64_MAX ∧ INT64_MIN ≤ y ∧ y ≤ INT64_MAX) :=
      fun hc => h (hr.mpr hc)
    refine ⟨⟨?_, fun hc => absurd hc hnr⟩, ⟨fun _ => hnr, fun _ => ⟨_, herr⟩⟩,
      hinit.1, hinit.2⟩
    rintro ⟨p, hp⟩
    rw [herr] at hp
    exact Except.noConfusion hp

/-- Claim C3: the blinker row `{(0,0),(1,0),(2,0)}` becomes
`{(1,-1),(1,0),(1,1)}` after one generation and returns to the original
set after two generations. -/
theorem claim_C3 :
    pointsOf (runGenerations
      { liveCells := [⟨⟨0, 0⟩, none⟩, ⟨⟨1, 0⟩, none⟩, ⟨⟨2, 0⟩, none⟩],
        deadCellNeighborCounts := [], numOfGenerations := 1,
        currentGeneration := 0 }).liveCells =
      {⟨1, -1⟩, ⟨1, 0⟩, ⟨1, 1⟩} ∧
    pointsOf (runGenerations
      { liveCells := [⟨⟨0, 0⟩, none⟩, ⟨⟨1, 0⟩, none⟩, ⟨⟨2, 0⟩, none⟩],
        deadCellNeighborCounts := [], numOfGenerations := 2,
        currentGeneration := 0 }).liveCells =
      {⟨0, 0⟩, ⟨1, 0⟩, ⟨2, 0⟩} := by
  constructor
  · rw [runGenerations_iterate 1 _ (by decide)]
    decide
  · rw [runGenerations_iterate 2 _ (by decide)]
    decide

/-! ## Tally association-list lemmas -/

theorem addCnt_zero (o : Option Nat) : addCnt o 0 = o := by
  cases o <;> simp [addCnt]

theorem addCnt_add (o : Option Nat) (a b : Nat) :
    addCnt (addCnt o a) b = addCnt o (a + b) := by
  cases o with
  | some v => simp [addCnt]; ring
  | none =>
    by_cases ha : a = 0
    · subst ha; simp [addCnt]
    · simp only [addCnt, if_neg ha, if_neg (by omega : ¬a + b = 0)]

theorem addCnt_getD (o : Option Nat) (m : Nat) :
    addCnt (some (o.getD 0 + 1)) m = addCnt o (m + 1) := by
  cases o <;> simp [addCnt] <;> omega

theorem tallyGet?_incr_self (t : Tally) (a : Point) :
    tallyGet? (tallyIncr t a) a = some ((tallyGet? t a).getD 0 + 1) := by
  induction t with
  | nil => simp [tallyIncr, tallyGet?]
  | cons e t ih =>
    by_cases h : e.1 = a
    · simp [tallyIncr, tallyGet?, h]
    · simp [tallyIncr, tallyGet?, h, ih]

theorem tallyGet?_incr_other (t : Tally) (a q : Point) (hne : q ≠ a) :
    tallyGet? (tallyIncr t a) q = tallyGet? t q := by
  induction t with
  | nil => simp [tallyIncr, tallyGet?, Ne.symm hne]
  | cons e t ih =>
    simp only [tallyIncr]
    by_cases h : e.1 = a
    · rw [if_pos h]
      have h2 : ¬e.1 = q := by rw [h]; exact Ne.symm hne
      simp only [tallyGet?]
      rw [if_neg h2, if_neg h2]
    · rw [if_neg h]
      simp only [tallyGet?]
      by_cases h3 : e.1 = q
      · rw [if_pos h3, if_pos h3]
      · rw [if_neg h3, if_neg h3, ih]

/-- Pointwise-equal predicates count equally. -/
theorem countP_ext {α : Type} (l : List α) (p q : α → Bool)
    (h : ∀ a ∈ l, p a = q a) : l.countP p = l.countP q := by
  induction l with
  | nil => rfl
  | cons a l ih =>
    rw [List.countP_cons, List.countP_cons, h a (by simp),
      ih (fun b hb => h b (by simp [hb]))]

/-! ## Characterization of `getLiveNeighbors` -/

theorem glnStep_fst (cells : List Cell) (p : Point) (acc : Nat × Tally) (d : Point) :
    (glnStep cells p acc d).1 =
      acc.1 +
        (if inRangeXY (p.x + d.x) (p.y + d.y) && memLive cells (padd p d) then 1
         else 0) := by
  simp only [glnStep, padd]
  by_cases h1 : inRangeXY (p.x + d.x) (p.y + d.y) = true
  · by_cases h2 : memLive cells (⟨p.x + d.x, p.y + d.y⟩ : Point) = true
    · simp [h1, h2]
    · simp [h1, h2]
  · simp [h1]

theorem glnStep_snd (cells : List Cell) (p : Point) (acc : Nat × Tally) (d : Point) :
    (glnStep cells p acc d).2 =
      if inRangeXY (p.x + d.x) (p.y + d.y) && !memLive cells (padd p d) then
        tallyIncr acc.2 (padd p d)
      else acc.2 := by
  simp only [glnStep, padd]
  by_cases h1 : inRangeXY (p.x + d.x) (p.y + d.y) = true
  · by_cases h2 : memLive cells (⟨p.x + d.x, p.y + d.y⟩ : Point) = true
    · simp [h1, h2]
    · simp [h1, h2]
  · simp [h1]

theorem glnFold_fst (ds : List Point) (cells : List Cell) (p : Point)
    (acc : Nat × Tally) :
    (ds.foldl (glnStep cells p) acc).1 =
      acc.1 +
        ds.countP
          (fun d => inRangeXY (p.x + d.x) (p.y + d.y) && memLive cells (padd p d)) := by
  induction ds generalizing acc with
  | nil => simp
  | cons d ds ih =>
    rw [List.foldl_cons, ih, List.countP_cons, glnStep_fst]
    by_cases hb : (inRangeXY (p.x + d.x) (p.y + d.y) && memLive cells (padd p d)) = true
    · simp only [hb, if_true]
      omega
    · simp only [Bool.not_eq_true] at hb
      simp only [hb, Bool.false_eq_true, if_false]
      omega

theorem glnFold_get (ds : List Point) (cells : List Cell) (p : Point)
    (acc : Nat × Tally) (k : Point) :
    tallyGet? (ds.foldl (glnStep cells p) acc).2 k =
      addCnt (tallyGet? acc.2 k)
        (ds.countP
          (fun d => padd p d == k && inRangeXY (p.x + d.x) (p.y + d.y) &&
            !memLive cells (padd p d))) := by
  induction ds generalizing acc with
  | nil => simp [addCnt_zero]
  | cons d ds ih =>
    rw [List.foldl_cons, ih, List.countP_cons]
    by_cases h1 : inRangeXY (p.x + d.x) (p.y + d.y) = true
    · by_cases h2 : memLive cells (padd p d) = true
      · have hsnd : (glnStep cells p acc d).2 = acc.2 := by
          rw [glnStep_snd]
          simp [h2]
        rw [hsnd]
        simp [h1, h2]
      · have hsnd : (glnStep cells p acc d).2 = tallyIncr acc.2 (padd p d) := by
          rw [glnStep_snd]
          simp [h1, h2]
        rw [hsnd]
        by_cases h3 : padd p d = k
        · rw [h3, tallyGet?_incr_self]
          have h2k : memLive cells k = false := by
            rw [← h3]
            simp only [Bool.not_eq_true] at h2
            exact h2
          simp [h3, h1, h2, h2k, addCnt_getD]
        · rw [tallyGet?_incr_other _ _ _ (fun he => h3 he.symm)]
          simp [h1, h2, h3]
    · have hsnd : (glnStep cells p acc d).2 = acc.2 := by
        rw [glnStep_snd]
        simp [h1]
      rw [hsnd]
      simp [h1]

/-! ## Characterization of `calculateNextGen` -/

theorem memLive_eq_mem (cells : List Cell) (q : Point) :
    memLive cells q = decide (q ∈ cells.map Cell.point) := by
  by_cases h : q ∈ cells.map Cell.point
  · obtain ⟨c, hc, hq⟩ := List.mem_map.mp h
    rw [decide_eq_true h]
    exact List.any_eq_true.mpr ⟨c, hc, by simp [hq]⟩
  · rw [decide_eq_false h]
    refine List.any_eq_false.mpr ?_
    intro c hc
    simp only [decide_eq_true_eq]
    intro hq
    exact h (List.mem_map.mpr ⟨c, hc, hq⟩)

theorem map_point_setFlag (cells : List Cell) (p : Point) (b : Bool) :
    (setFlag cells p b).map Cell.point = cells.map Cell.point := by
  unfold setFlag
  rw [List.map_map]
  apply List.map_congr_left
  intro c _
  by_cases h : c.point = p
  · simp [h]
  · simp [h]

theorem memLive_congr {cs cs' : List Cell}
    (h : cs.map Cell.point = cs'.map Cell.point) (q : Point) :
    memLive cs q = memLive cs' q := by
  rw [memLive_eq_mem, memLive_eq_mem, h]

theorem getLiveNeighbors_fst_eq (cs cells₀ : List Cell) (p : Point) (t : Tally)
    (h : cs.map Cell.point = cells₀.map Cell.point) :
    (getLiveNeighbors cs p t).1 = dirLiveCount cells₀ p := by
  rw [getLiveNeighbors, glnFold_fst]
  have := countP_ext directions
    (fun d => inRangeXY (p.x + d.x) (p.y + d.y) && memLive cs (padd p d))
    (fun d => inRangeXY (p.x + d.x) (p.y + d.y) && memLive cells₀ (padd p d))
    (fun d _ => by simp only [memLive_congr h])
  unfold dirLiveCount
  omega

theorem getLiveNeighbors_snd_get (cs cells₀ : List Cell) (p : Point) (t : Tally)
    (k : Point) (h : cs.map Cell.point = cells₀.map Cell.point) :
    tallyGet? (getLiveNeighbors cs p t).2 k =
      addCnt (tallyGet? t k) (dirTallyCnt cells₀ p k) := by
  rw [getLiveNeighbors, glnFold_get]
  unfold dirTallyCnt
  rw [countP_ext directions
    (fun d => padd p d == k && inRangeXY (p.x + d.x) (p.y + d.y) &&
      !memLive cs (padd p d))
    (fun d => padd p d == k && inRangeXY (p.x + d.x) (p.y + d.y) &&
      !memLive cells₀ (padd p d))
    (fun d _ => by simp only [memLive_congr h])]

theorem cngFold_get (ps : List Point) (cells₀ : List Cell) (k : Point) :
    ∀ acc : List Cell × Tally, acc.1.map Cell.point = cells₀.map Cell.point →
      tallyGet? (ps.foldl cngStep acc).2 k =
        addCnt (tallyGet? acc.2 k) (sumTallyCnt cells₀ ps k) := by
  induction ps with
  | nil =>
    intro acc h
    simp [sumTallyCnt, addCnt_zero]
  | cons p ps ih =>
    intro acc h
    rw [List.foldl_cons,
      ih (cngStep acc p)
        (by
          rw [show (cngStep acc p).1 =
              setFlag acc.1 p ((getLiveNeighbors acc.1 p acc.2).1 == 2 ||
                (getLiveNeighbors acc.1 p acc.2).1 == 3) from rfl,
            map_point_setFlag, h]),
      show (cngStep acc p).2 = (getLiveNeighbors acc.1 p acc.2).2 from rfl,
      getLiveNeighbors_snd_get acc.1 cells₀ p acc.2 k h, addCnt_add]
    simp [sumTallyCnt]

theorem cngFold_fst (ps : List Point) (cells₀ : List Cell) :
    ∀ acc : List Cell × Tally, acc.1.map Cell.point = cells₀.map Cell.point →
      (ps.foldl cngStep acc).1 =
        acc.1.map (fun c =>
          if c.point ∈ ps then (⟨c.point, some (survFlag cells₀ c.point)⟩ : Cell)
          else c) := by
  induction ps with
  | nil =>
    intro acc h
    simp
  | cons p ps ih =>
    intro acc h
    rw [List.foldl_cons,
      ih (cngStep acc p)
        (by
          rw [show (cngStep acc p).1 =
              setFlag acc.1 p ((getLiveNeighbors acc.1 p acc.2).1 == 2 ||
                (getLiveNeighbors acc.1 p acc.2).1 == 3) from rfl,
            map_point_setFlag, h]),
      show (cngStep acc p).1 =
          setFlag acc.1 p ((getLiveNeighbors acc.1 p acc.2).1 == 2 ||
            (getLiveNeighbors acc.1 p acc.2).1 == 3) from rfl]
    have hB : ((getLiveNeighbors acc.1 p acc.2).1 == 2 ||
        (getLiveNeighbors acc.1 p acc.2).1 == 3) = survFlag cells₀ p := by
      rw [getLiveNeighbors_fst_eq acc.1 cells₀ p acc.2 h]
      rfl
    rw [hB]
    unfold setFlag
    rw [List.map_map]
    apply List.map_congr_left
    intro c _
    by_cases hp : c.point = p
    · by_cases hmem : c.point ∈ ps
      · simp [Function.comp, hp, hmem]
      · simp [Function.comp, hp, hmem]
    · by_cases hmem : c.point ∈ ps
      · simp [Function.comp, hp, hmem]
      · simp [Function.comp, hp, hmem]

theorem calculateNextGen_fst (cells : List Cell) (t : Tally) :
    (calculateNextGen cells t).1 =
      cells.map (fun c => (⟨c.point, some (survFlag cells c.point)⟩ : Cell)) := by
  unfold calculateNextGen
  rw [cngFold_fst (cells.map Cell.point) cells (cells, t) rfl]
  apply List.map_congr_left
  intro c hc
  rw [if_pos (List.mem_map_of_mem Cell.point hc)]

theorem calculateNextGen_get (cells : List Cell) (t : Tally) (k : Point) :
    tallyGet? (calculateNextGen cells t).2 k =
      addCnt (tallyGet? t k) (sumTallyCnt cells (cells.map Cell.point) k) := by
  unfold calculateNextGen
  exact cngFold_get (cells.map Cell.point) cells k (cells, t) rfl

/-! ## Adjacency and counting bridges -/

theorem Point.ext_iff2 (p q : Point) : p = q ↔ p.x = q.x ∧ p.y = q.y := by
  constructor
  · intro h
    rw [h]
    exact ⟨rfl, rfl⟩
  · intro ⟨h1, h2⟩
    cases p
    cases q
    simp_all

theorem padd_injective (p : Point) : Function.Injective (padd p) := by
  intro d1 d2 h
  rw [Point.ext_iff2] at h ⊢
  simp only [padd] at h
  omega

theorem adjacent_iff (q p : Point) :
    Point.adjacent q p = true ↔
      ¬q = p ∧ (q.x - p.x).natAbs ≤ 1 ∧ (q.y - p.y).natAbs ≤ 1 := by
  simp [Point.adjacent, bne_iff_ne, and_assoc]

theorem mem_nbrs_iff (q p : Point) :
    q ∈ directions.map (padd p) ↔
      ¬q = p ∧ (q.x - p.x).natAbs ≤ 1 ∧ (q.y - p.y).natAbs ≤ 1 := by
  simp [directions, padd, Point.ext_iff2]
  omega

theorem adjacent_eq_decide_mem (q p : Point) :
    Point.adjacent q p = decide (q ∈ directions.map (padd p)) := by
  by_cases hm : q ∈ directions.map (padd p)
  · rw [decide_eq_true hm]
    exact (adjacent_iff q p).mpr ((mem_nbrs_iff q p).mp hm)
  · rw [decide_eq_false hm, Bool.eq_false_iff]
    intro hb
    exact hm ((mem_nbrs_iff q p).mpr ((adjacent_iff q p).mp hb))

theorem adjacent_symm (q p : Point) : Point.adjacent q p = Point.adjacent p q := by
  by_cases h : Point.adjacent q p = true
  · have h2 : Point.adjacent p q = true := by
      obtain ⟨h1, hx, hy⟩ := (adjacent_iff q p).mp h
      exact (adjacent_iff p q).mpr ⟨fun he => h1 he.symm, by omega, by omega⟩
    rw [h, h2]
  · have h2 : ¬Point.adjacent p q = true := by
      intro hb
      obtain ⟨h1, hx, hy⟩ := (adjacent_iff p q).mp hb
      exact h ((adjacent_iff q p).mpr ⟨fun he => h1 he.symm, by omega, by omega⟩)
    rw [Bool.not_eq_true] at h h2
    rw [h, h2]

theorem isNbrOf_eq_adjacent (p k : Point) : isNbrOf p k = Point.adjacent k p := by
  rw [adjacent_eq_decide_mem]
  by_cases hm : k ∈ directions.map (padd p)
  · rw [decide_eq_true hm]
    obtain ⟨d, hd, heq⟩ := List.mem_map.mp hm
    exact List.any_eq_true.mpr ⟨d, hd, by simp [heq]⟩
  · rw [decide_eq_false hm, Bool.eq_false_iff]
    intro hb
    obtain ⟨d, hd, heq⟩ := List.any_eq_true.mp hb
    simp only [beq_iff_eq] at heq
    exact hm (List.mem_map.mpr ⟨d, hd, heq⟩)

theorem nodup_length_le_of_sub {l m : List Point} (h : l.Nodup)
    (hsub : ∀ a ∈ l, a ∈ m) : l.length ≤ m.length := by
  rw [← List.toFinset_card_of_nodup h]
  refine le_trans (Finset.card_le_card ?_) (List.toFinset_card_le m)
  intro a ha
  rw [List.mem_toFinset] at ha ⊢
  exact hsub a ha

theorem countP_mem_comm {l₁ l₂ : List Point} (h₁ : l₁.Nodup) (h₂ : l₂.Nodup)
    (P : Point → Bool) :
    l₁.countP (fun q => P q && decide (q ∈ l₂)) =
      l₂.countP (fun q => P q && decide (q ∈ l₁)) := by
  rw [List.countP_eq_length_filter, List.countP_eq_length_filter,
    ← List.toFinset_card_of_nodup (List.Nodup.filter _ h₁),
    ← List.toFinset_card_of_nodup (List.Nodup.filter _ h₂)]
  have e1 : (l₁.filter (fun q => P q && decide (q ∈ l₂))).toFinset =
      (l₁.toFinset ∩ l₂.toFinset).filter (fun q => P q = true) := by
    ext q
    simp only [List.mem_toFinset, List.mem_filter, Finset.mem_filter,
      Finset.mem_inter, Bool.and_eq_true, decide_eq_true_eq]
    tauto
  have e2 : (l₂.filter (fun q => P q && decide (q ∈ l₁))).toFinset =
      (l₂.toFinset ∩ l₁.toFinset).filter (fun q => P q = true) := by
    ext q
    simp only [List.mem_toFinset, List.mem_filter, Finset.mem_filter,
      Finset.mem_inter, Bool.and_eq_true, decide_eq_true_eq]
    tauto
  rw [e1, e2, Finset.inter_comm]

theorem isNbrOf_iff_deltaMem (p k : Point) :
    isNbrOf p k = true ↔ (⟨k.x - p.x, k.y - p.y⟩ : Point) ∈ directions := by
  unfold isNbrOf
  rw [List.any_eq_true]
  constructor
  · rintro ⟨d, hd, hbeq⟩
    have hpk : padd p d = k := by simpa using hbeq
    have hdelta : d = (⟨k.x - p.x, k.y - p.y⟩ : Point) := by
      rw [Point.ext_iff2] at hpk ⊢
      simp only [padd] at hpk
      simp only []
      omega
    rwa [← hdelta]
  · intro hm
    refine ⟨_, hm, ?_⟩
    simp only [beq_iff_eq, padd, Point.ext_iff2]
    constructor <;> simp <;> omega

theorem countP_padd_eq (p k : Point) :
    directions.countP (fun d => padd p d == k) =
      if isNbrOf p k then 1 else 0 := by
  have hδ : ∀ d : Point,
      (padd p d == k) = (d == (⟨k.x - p.x, k.y - p.y⟩ : Point)) := by
    intro d
    by_cases hd : padd p d = k
    · have hdd : d = (⟨k.x - p.x, k.y - p.y⟩ : Point) := by
        rw [Point.ext_iff2] at hd ⊢
        simp only [padd] at hd
        simp only []
        omega
      rw [hdd] at hd
      rw [hdd]
      simp [hd]
    · have hd2 : ¬d = (⟨k.x - p.x, k.y - p.y⟩ : Point) := by
        intro he
        apply hd
        rw [Point.ext_iff2]
        simp only [padd, he]
        constructor <;> simp <;> omega
      simp [hd, hd2]
  rw [countP_ext directions _ _ (fun d _ => hδ d)]
  have hc : directions.countP (fun d => d == (⟨k.x - p.x, k.y - p.y⟩ : Point)) =
      List.count (⟨k.x - p.x, k.y - p.y⟩ : Point) directions := rfl
  rw [hc]
  by_cases hm : (⟨k.x - p.x, k.y - p.y⟩ : Point) ∈ directions
  · rw [if_pos ((isNbrOf_iff_deltaMem p k).mpr hm)]
    have h1 : 0 < List.count (⟨k.x - p.x, k.y - p.y⟩ : Point) directions :=
      List.count_pos_iff.mpr hm
    have h2 : List.count (⟨k.x - p.x, k.y - p.y⟩ : Point) directions ≤ 1 :=
      List.nodup_iff_count_le_one.mp (by decide) _
    omega
  · rw [if_neg (fun hb => hm ((isNbrOf_iff_deltaMem p k).mp hb)),
      List.count_eq_zero_of_not_mem hm]

theorem dirTallyCnt_eq (cells : List Cell) (p k : Point) :
    dirTallyCnt cells p k =
      if isNbrOf p k && (k.inRange && !memLive cells k) then 1 else 0 := by
  unfold dirTallyCnt
  rw [countP_ext directions _
    (fun d => padd p d == k && (k.inRange && !memLive cells k))
    (fun d _ => by
      simp only []
      by_cases hd : padd p d = k
      · have h1 : inRangeXY (p.x + d.x) (p.y + d.y) = k.inRange := by
          rw [← hd]; rfl
        rw [h1, hd]
        simp [Bool.and_assoc]
      · have hb : (padd p d == k) = false := by simp [hd]
        rw [hb]
        simp)]
  by_cases hB : (k.inRange && !memLive cells k) = true
  · rw [countP_ext directions _ (fun d => padd p d == k)
      (fun d _ => by rw [hB, Bool.and_true]), countP_padd_eq]
    by_cases hn : isNbrOf p k = true
    · simp [hn, hB]
    · rw [Bool.not_eq_true] at hn
      simp [hn]
  · rw [Bool.not_eq_true] at hB
    rw [countP_ext directions _ (fun _ => false)
      (fun d _ => by simp only []; rw [hB, Bool.and_false])]
    simp [hB, congrFun List.countP_false]

theorem sumTallyCnt_eq (cells : List Cell) (ps : List Point) (k : Point) :
    sumTallyCnt cells ps k =
      if k.inRange && !memLive cells k then ps.countP (fun p => isNbrOf p k)
      else 0 := by
  induction ps with
  | nil => by_cases hB : (k.inRange && !memLive cells k) = true <;>
      simp [sumTallyCnt, hB]
  | cons p ps ih =>
    have hstep : sumTallyCnt cells (p :: ps) k =
        dirTallyCnt cells p k + sumTallyCnt cells ps k := by
      simp [sumTallyCnt]
    rw [hstep, ih, dirTallyCnt_eq, List.countP_cons]
    by_cases hB : (k.inRange && !memLive cells k) = true
    · rw [if_pos hB, if_pos hB]
      by_cases hn : isNbrOf p k = true
      · simp [hn, hB]
        omega
      · rw [Bool.not_eq_true] at hn
        simp [hn]
    · rw [Bool.not_eq_true] at hB
      simp [hB]

theorem dirLiveCount_eq_liveNbrCount (cells : List Cell)
    (hnodup : (cells.map Cell.point).Nodup) (p : Point) :
    dirLiveCount cells p = liveNbrCount cells p := by
  have h1 : dirLiveCount cells p =
      (directions.map (padd p)).countP
        (fun q => q.inRange && decide (q ∈ cells.map Cell.point)) := by
    rw [List.countP_map]
    unfold dirLiveCount
    refine countP_ext _ _ _ (fun d _ => ?_)
    simp only [Function.comp]
    rw [memLive_eq_mem]
    rfl
  have h2 : (directions.map (padd p)).countP
        (fun q => q.inRange && decide (q ∈ cells.map Cell.point)) =
      (cells.map Cell.point).countP
        (fun q => q.inRange && decide (q ∈ directions.map (padd p))) :=
    countP_mem_comm (List.Nodup.map (padd_injective p) (by decide)) hnodup _
  have h3 : (cells.map Cell.point).countP
        (fun q => q.inRange && decide (q ∈ directions.map (padd p))) =
      (cells.map Cell.point).countP (fun q => q.inRange && Point.adjacent q p) :=
    countP_ext _ _ _ (fun q _ => by
      simp only [← adjacent_eq_decide_mem])
  have h4 : liveNbrCount cells p =
      (cells.map Cell.point).countP (fun q => q.inRange && Point.adjacent q p) := by
    unfold liveNbrCount
    rw [← List.countP_eq_length_filter, List.countP_map]
    rfl
  rw [h1, h2, h3, h4]

theorem genCount_eq_adjCount (cells : List Cell) (k : Point) :
    (cells.map Cell.point).countP (fun p => isNbrOf p k) = adjCount cells k := by
  unfold adjCount
  rw [← List.countP_eq_length_filter, List.countP_map]
  refine countP_ext _ _ _ (fun c _ => ?_)
  simp only [Function.comp]
  rw [isNbrOf_eq_adjacent, adjacent_symm]

/-! ## Membership through the remove / birth / reset phases -/

theorem mem_removeDead_iff (cells₁ : List Cell) (q : Point) :
    q ∈ (removeDeadCells cells₁).map Cell.point ↔
      q ∈ cells₁.map Cell.point ∧
        ¬∃ c ∈ cells₁, c.isNextGenAlive = some false ∧ c.point = q := by
  unfold removeDeadCells
  have hcont : ∀ r : Point,
      (((cells₁.filter (fun c => c.isNextGenAlive == some false)).map
        Cell.point).contains r = false) ↔
      ¬∃ c ∈ cells₁, c.isNextGenAlive = some false ∧ c.point = r := by
    intro r
    rw [← Bool.not_eq_true]
    simp [List.mem_map, List.mem_filter]
  simp only [List.mem_map, List.mem_filter, Bool.not_eq_true']
  constructor
  · rintro ⟨c, ⟨hc, hkeep⟩, rfl⟩
    exact ⟨⟨c, hc, rfl⟩, (hcont c.point).mp hkeep⟩
  · rintro ⟨⟨c, hc, rfl⟩, hnone⟩
    exact ⟨c, ⟨hc, (hcont c.point).mpr hnone⟩, rfl⟩

theorem mem_afterRemove (cells : List Cell) (q : Point) :
    q ∈ (removeDeadCells (cells.map
        (fun c => (⟨c.point, some (survFlag cells c.point)⟩ : Cell)))).map
          Cell.point ↔
      q ∈ cells.map Cell.point ∧ survFlag cells q = true := by
  rw [mem_removeDead_iff]
  have hpts : (cells.map
      (fun c => (⟨c.point, some (survFlag cells c.point)⟩ : Cell))).map
        Cell.point = cells.map Cell.point := by
    rw [List.map_map]
    rfl
  rw [hpts]
  constructor
  · rintro ⟨hq, hnone⟩
    refine ⟨hq, ?_⟩
    by_contra hf
    rw [Bool.not_eq_true] at hf
    obtain ⟨c₀, hc₀, hpt⟩ := List.mem_map.mp hq
    refine hnone ⟨⟨c₀.point, some (survFlag cells c₀.point)⟩,
      List.mem_map.mpr ⟨c₀, hc₀, rfl⟩, ?_, hpt⟩
    rw [hpt, hf]
  · rintro ⟨hq, hf⟩
    refine ⟨hq, ?_⟩
    rintro ⟨c₁, hc₁, hflag, hpt⟩
    obtain ⟨c₀, hc₀, rfl⟩ := List.mem_map.mp hc₁
    simp only [] at hflag hpt
    rw [hpt] at hflag
    rw [hf] at hflag
    exact Option.noConfusion hflag (fun h => Bool.noConfusion h)

theorem mem_setAdd (cs : List Cell) (c : Cell) (q : Point) :
    q ∈ (setAdd cs c).map Cell.point ↔ q ∈ cs.map Cell.point ∨ q = c.point := by
  unfold setAdd
  by_cases hmem : memLive cs c.point = true
  · rw [if_pos hmem]
    rw [memLive_eq_mem] at hmem
    rw [decide_eq_true_eq] at hmem
    constructor
    · exact Or.inl
    · rintro (h | rfl)
      · exact h
      · exact hmem
  · rw [if_neg hmem]
    simp [List.mem_append, eq_comm]

theorem mem_setAddFold (births : List (Point × Nat)) :
    ∀ (cs : List Cell) (q : Point),
      q ∈ (births.foldl (fun cs e => setAdd cs ⟨e.1, some true⟩) cs).map
        Cell.point ↔
      q ∈ cs.map Cell.point ∨ ∃ e ∈ births, e.1 = q := by
  induction births with
  | nil => simp
  | cons b births ih =>
    intro cs q
    rw [List.foldl_cons, ih, mem_setAdd]
    simp only [List.mem_cons]
    constructor
    · rintro ((h | h) | ⟨e, he, rfl⟩)
      · exact Or.inl h
      · exact Or.inr ⟨b, Or.inl rfl, h.symm⟩
      · exact Or.inr ⟨e, Or.inr he, rfl⟩
    · rintro (h | ⟨e, he | he, rfl⟩)
      · exact Or.inl (Or.inl h)
      · exact Or.inl (Or.inr (by rw [he]))
      · exact Or.inr ⟨e, he, rfl⟩

theorem map_point_reset (cs : List Cell) :
    (resetNextGen cs).map Cell.point = cs.map Cell.point := by
  unfold resetNextGen
  rw [List.map_map]
  rfl

/-! ## Tally keys are unique (dict semantics) -/

theorem keys_tallyIncr (t : Tally) (k : Point) :
    (tallyIncr t k).map Prod.fst =
      if k ∈ t.map Prod.fst then t.map Prod.fst else t.map Prod.fst ++ [k] := by
  induction t with
  | nil => simp [tallyIncr]
  | cons e t ih =>
    simp only [tallyIncr]
    by_cases h : e.1 = k
    · have hm : k ∈ (e :: t).map Prod.fst := by simp [← h]
      rw [if_pos h, if_pos hm]
      simp
    · rw [if_neg h]
      by_cases hm : k ∈ t.map Prod.fst
      · have hm2 : k ∈ (e :: t).map Prod.fst := by simp [hm]
        rw [if_pos hm2]
        simp [ih, hm]
      · have hm2 : ¬k ∈ (e :: t).map Prod.fst := by
          simp only [List.map_cons, List.mem_cons]
          rintro (hk | hk)
          · exact h hk.symm
          · exact hm hk
        rw [if_neg hm2]
        simp [ih, hm]

theorem keysNodup_tallyIncr (t : Tally) (k : Point)
    (h : (t.map Prod.fst).Nodup) : ((tallyIncr t k).map Prod.fst).Nodup := by
  rw [keys_tallyIncr]
  by_cases hm : k ∈ t.map Prod.fst
  · rwa [if_pos hm]
  · rw [if_neg hm]
    simp [List.nodup_append, h, hm]

theorem keysNodup_glnStep (cells : List Cell) (p : Point) (acc : Nat × Tally)
    (d : Point) (h : (acc.2.map Prod.fst).Nodup) :
    (((glnStep cells p acc d).2).map Prod.fst).Nodup := by
  rw [glnStep_snd]
  by_cases hb : (inRangeXY (p.x + d.x) (p.y + d.y) && !memLive cells (padd p d)) = true
  · rw [if_pos hb]
    exact keysNodup_tallyIncr _ _ h
  · rwa [if_neg hb]

theorem keysNodup_glnFold (ds : List Point) (cells : List Cell) (p : Point) :
    ∀ acc : Nat × Tally, (acc.2.map Prod.fst).Nodup →
      ((ds.foldl (glnStep cells p) acc).2.map Prod.fst).Nodup := by
  induction ds with
  | nil => intro acc h; exact h
  | cons d ds ih =>
    intro acc h
    rw [List.foldl_cons]
    exact ih _ (keysNodup_glnStep cells p acc d h)

theorem keysNodup_cngFold (ps : List Point) :
    ∀ acc : List Cell × Tally, (acc.2.map Prod.fst).Nodup →
      ((ps.foldl cngStep acc).2.map Prod.fst).Nodup := by
  induction ps with
  | nil => intro acc h; exact h
  | cons p ps ih =>
    intro acc h
    rw [List.foldl_cons]
    refine ih _ ?_
    show (((directions.foldl (glnStep acc.1 p) (0, acc.2)).2).map Prod.fst).Nodup
    exact keysNodup_glnFold directions acc.1 p (0, acc.2) h

theorem keysNodup_calculateNextGen (cells : List Cell) :
    (((calculateNextGen cells []).2).map Prod.fst).Nodup := by
  unfold calculateNextGen
  exact keysNodup_cngFold (cells.map Cell.point) (cells, []) (by simp)

theorem tallyGet?_eq_some_iff (t : Tally) (h : (t.map Prod.fst).Nodup)
    (k : Point) (v : Nat) : tallyGet? t k = some v ↔ (k, v) ∈ t := by
  induction t with
  | nil => simp [tallyGet?]
  | cons e t ih =>
    have h' : (t.map Prod.fst).Nodup := by
      simp only [List.map_cons, List.nodup_cons] at h
      exact h.2
    have hknotin : e.1 ∉ t.map Prod.fst := by
      simp only [List.map_cons, List.nodup_cons] at h
      exact h.1
    simp only [tallyGet?, List.mem_cons]
    by_cases hek : e.1 = k
    · rw [if_pos hek]
      constructor
      · intro h1
        injection h1 with hv
        left
        rw [Prod.ext_iff]
        exact ⟨hek.symm, hv.symm⟩
      · rintro (h1 | h1)
        · have hv : v = e.2 := by
            have h2 := congrArg Prod.snd h1
            simpa using h2
          rw [hv]
        · exfalso
          apply hknotin
          rw [hek]
          exact List.mem_map_of_mem Prod.fst h1
    · rw [if_neg hek, ih h']
      constructor
      · exact Or.inr
      · rintro (h1 | h1)
        · exfalso
          rw [Prod.ext_iff] at h1
          exact hek h1.1.symm
        · exact h1

theorem births_exists_iff (t : Tally) (h : (t.map Prod.fst).Nodup) (q : Point) :
    (∃ e ∈ t.filter (fun e => e.2 == 3), e.1 = q) ↔ tallyGet? t q = some 3 := by
  rw [tallyGet?_eq_some_iff t h]
  constructor
  · rintro ⟨e, he, hq⟩
    rw [List.mem_filter] at he
    have h3 : e.2 = 3 := by simpa using he.2
    have : e = (q, 3) := by
      rw [Prod.ext_iff]
      exact ⟨hq, h3⟩
    rw [← this]
    exact he.1
  · intro hm
    exact ⟨(q, 3), List.mem_filter.mpr ⟨hm, by simp⟩, rfl⟩

/-! ## Step membership characterization -/

theorem addCnt_none_some (m v : Nat) :
    addCnt none m = some v ↔ v = m ∧ m ≠ 0 := by
  unfold addCnt
  by_cases hm : m = 0
  · simp [hm]
  · simp [hm, eq_comm]

theorem mem_step_iff (cells : List Cell)
    (hnodup : (cells.map Cell.point).Nodup) (n gen : Int) (q : Point) :
    q ∈ (runNextGeneration
        { liveCells := cells, deadCellNeighborCounts := [],
          numOfGenerations := n, currentGeneration := gen }).liveCells.map
        Cell.point ↔
      (q ∈ cells.map Cell.point ∧ survFlag cells q = true) ∨
      (memLive cells q = false ∧ q.inRange = true ∧
        (cells.map Cell.point).countP (fun p => isNbrOf p q) = 3) := by
  have hphase : (runNextGeneration
      { liveCells := cells, deadCellNeighborCounts := [],
        numOfGenerations := n, currentGeneration := gen }).liveCells =
      resetNextGen
        (createNewCells (removeDeadCells (calculateNextGen cells []).1)
          (calculateNextGen cells []).2).1 := rfl
  have hcreate : (createNewCells (removeDeadCells (calculateNextGen cells []).1)
      (calculateNextGen cells []).2).1 =
      ((calculateNextGen cells []).2.filter (fun e => e.2 == 3)).foldl
        (fun cs e => setAdd cs ⟨e.1, some true⟩)
        (removeDeadCells (calculateNextGen cells []).1) := rfl
  rw [hphase, map_point_reset, hcreate, mem_setAddFold, calculateNextGen_fst cells [],
    mem_afterRemove, births_exists_iff _ (keysNodup_calculateNextGen cells) q,
    calculateNextGen_get cells [], show tallyGet? [] q = none from rfl,
    sumTallyCnt_eq]
  constructor
  · rintro (h | h)
    · exact Or.inl h
    · right
      by_cases hB : (q.inRange && !memLive cells q) = true
      · rw [if_pos hB, addCnt_none_some] at h
        rw [Bool.and_eq_true] at hB
        obtain ⟨hr, hm⟩ := hB
        rw [Bool.not_eq_true'] at hm
        exact ⟨hm, hr, h.1.symm⟩
      · rw [if_neg hB] at h
        rw [addCnt_none_some] at h
        exact absurd rfl h.2
  · rintro (h | ⟨hm, hr, hcnt⟩)
    · exact Or.inl h
    · right
      have hB : (q.inRange && !memLive cells q) = true := by
        rw [hr, hm]
        rfl
      rw [if_pos hB, hcnt, addCnt_none_some]
      exact ⟨rfl, by omega⟩

/-- Claim C1: from a clean state (all transition markers unset, empty
NeighborTally) whose live set has pairwise-distinct in-range coordinates,
one step produces exactly the simultaneous-update Game of Life successor
computed from the pre-step live set: a previously-live cell survives iff
its count of in-range live neighbors in the pre-step live set is 2 or 3,
and a previously-dead in-range coordinate is born iff exactly 3 of the
pre-step live cells are its neighbors; all counts refer to the pre-step
live set only, so no evaluation is influenced by same-step removals or
births. -/
theorem claim_C1 :
    ∀ (cells : List Cell) (n gen : Int),
      (∀ c ∈ cells, c.isNextGenAlive = none) →
      (cells.map Cell.point).Nodup →
      (∀ c ∈ cells, c.point.inRange = true) →
      ∀ q : Point,
        memLive (runNextGeneration
          { liveCells := cells, deadCellNeighborCounts := [],
            numOfGenerations := n, currentGeneration := gen }).liveCells q =
            true ↔
        (if memLive cells q = true then
          liveNbrCount cells q = 2 ∨ liveNbrCount cells q = 3
        else q.inRange = true ∧ adjCount cells q = 3) := by
  intro cells n gen hclean hnodup hrange q
  rw [memLive_eq_mem, decide_eq_true_eq, mem_step_iff cells hnodup n gen q]
  have hsurv : survFlag cells q = true ↔
      (liveNbrCount cells q = 2 ∨ liveNbrCount cells q = 3) := by
    unfold survFlag
    rw [dirLiveCount_eq_liveNbrCount cells hnodup q]
    simp
  have hgen : (cells.map Cell.point).countP (fun p => isNbrOf p q) =
      adjCount cells q := genCount_eq_adjCount cells q
  by_cases hmem : memLive cells q = true
  · rw [if_pos hmem]
    have hq : q ∈ cells.map Cell.point := by
      rw [memLive_eq_mem, decide_eq_true_eq] at hmem
      exact hmem
    constructor
    · rintro (⟨_, hs⟩ | ⟨hmf, _, _⟩)
      · exact hsurv.mp hs
      · rw [hmem] at hmf
        exact Bool.noConfusion hmf
    · intro hs
      exact Or.inl ⟨hq, hsurv.mpr hs⟩
  · rw [if_neg hmem]
    rw [Bool.not_eq_true] at hmem
    constructor
    · rintro (⟨hq, _⟩ | ⟨_, hr, hcnt⟩)
      · exfalso
        rw [memLive_eq_mem, decide_eq_false_iff_not] at hmem
        exact hmem hq
      · exact ⟨hr, hgen ▸ hcnt⟩
    · rintro ⟨hr, hcnt⟩
      exact Or.inr ⟨hmem, hr, hgen ▸ hcnt⟩

theorem claim_C1_witness :
    memLive (runNextGeneration
      { liveCells := [⟨⟨0, 0⟩, none⟩, ⟨⟨1, 0⟩, none⟩, ⟨⟨2, 0⟩, none⟩],
        deadCellNeighborCounts := [], numOfGenerations := 1,
        currentGeneration := 0 }).liveCells ⟨1, 1⟩ = true ↔
    (if memLive [⟨⟨0, 0⟩, none⟩, ⟨⟨1, 0⟩, none⟩, ⟨⟨2, 0⟩, none⟩] ⟨1, 1⟩ = true then
      liveNbrCount [⟨⟨0, 0⟩, none⟩, ⟨⟨1, 0⟩, none⟩, ⟨⟨2, 0⟩, none⟩] ⟨1, 1⟩ = 2 ∨
      liveNbrCount [⟨⟨0, 0⟩, none⟩, ⟨⟨1, 0⟩, none⟩, ⟨⟨2, 0⟩, none⟩] ⟨1, 1⟩ = 3
    else Point.inRange ⟨1, 1⟩ = true ∧
      adjCount [⟨⟨0, 0⟩, none⟩, ⟨⟨1, 0⟩, none⟩, ⟨⟨2, 0⟩, none⟩] ⟨1, 1⟩ = 3) :=
  claim_C1 [⟨⟨0, 0⟩, none⟩, ⟨⟨1, 0⟩, none⟩, ⟨⟨2, 0⟩, none⟩] 1 0
    (by decide) (by decide) (by decide) ⟨1, 1⟩

/-! ## The tally invariant (claim C4 support) -/

theorem countP_isNbrOf_le_8 (pts : List Point) (hnodup : pts.Nodup) (k : Point) :
    pts.countP (fun p => isNbrOf p k) ≤ 8 := by
  rw [List.countP_eq_length_filter]
  refine le_trans
    (nodup_length_le_of_sub (List.Nodup.filter _ hnodup)
      (m := directions.map (fun d => (⟨k.x - d.x, k.y - d.y⟩ : Point))) ?_) ?_
  · intro a ha
    rw [List.mem_filter] at ha
    obtain ⟨d, hd, hbeq⟩ := List.any_eq_true.mp ha.2
    rw [beq_iff_eq] at hbeq
    refine List.mem_map.mpr ⟨d, hd, ?_⟩
    rw [Point.ext_iff2] at hbeq ⊢
    simp only [padd] at hbeq
    simp only []
    omega
  · rw [List.length_map]
    decide

theorem map_point_cngFold (ps : List Point) (cells : List Cell) (t : Tally) :
    (ps.foldl cngStep (cells, t)).1.map Cell.point = cells.map Cell.point := by
  rw [cngFold_fst ps cells (cells, t) rfl, List.map_map]
  apply List.map_congr_left
  intro c _
  by_cases hmem : c.point ∈ ps <;> simp [hmem]

/-- Claim C4: throughout a single step — after any number of processed
live cells and, within the cell being processed, any number of processed
directions — every key of the NeighborTally is a coordinate that is dead
in the pre-step live set and every stored value lies in `[1, 8]`; the
invariant also holds for the completed phase-1 tally, and the tally is
empty again when the step finishes. -/
theorem claim_C4 :
    ∀ (cells : List Cell) (n gen : Int),
      (cells.map Cell.point).Nodup →
      (∀ (ps₁ ps₂ : List Point) (p : Point) (ds₁ ds₂ : List Point),
        cells.map Cell.point = ps₁ ++ p :: ps₂ →
        directions = ds₁ ++ ds₂ →
        tallyInv cells
          (ds₁.foldl (glnStep (ps₁.foldl cngStep (cells, [])).1 p)
            (0, (ps₁.foldl cngStep (cells, [])).2)).2) ∧
      tallyInv cells (calculateNextGen cells []).2 ∧
      (runNextGeneration
        { liveCells := cells, deadCellNeighborCounts := [],
          numOfGenerations := n, currentGeneration := gen
        }).deadCellNeighborCounts = [] := by
  intro cells n gen hnodup
  refine ⟨?_, ?_, rfl⟩
  · intro ps₁ ps₂ p ds₁ ds₂ hsplit hdirs k v hget
    have hmidpts : (ps₁.foldl cngStep (cells, [])).1.map Cell.point =
        cells.map Cell.point := map_point_cngFold ps₁ cells []
    rw [glnFold_get, countP_ext ds₁ _
        (fun d => padd p d == k && inRangeXY (p.x + d.x) (p.y + d.y) &&
          !memLive cells (padd p d))
        (fun d _ => by simp only [memLive_congr hmidpts]),
      show (0, (ps₁.foldl cngStep (cells, [])).2).2 =
        (ps₁.foldl cngStep (cells, [])).2 from rfl,
      cngFold_get ps₁ cells k (cells, []) rfl,
      show tallyGet? [] k = none from rfl, addCnt_add, addCnt_none_some] at hget
    obtain ⟨hv, hne⟩ := hget
    set m₁ := sumTallyCnt cells ps₁ k with hm₁
    set m₂ := ds₁.countP
      (fun d => padd p d == k && inRangeXY (p.x + d.x) (p.y + d.y) &&
        !memLive cells (padd p d)) with hm₂
    have hmem : memLive cells k = false := by
      by_cases h1 : 0 < m₁
      · rw [hm₁, sumTallyCnt_eq] at h1
        by_cases hB : (k.inRange && !memLive cells k) = true
        · rw [Bool.and_eq_true] at hB
          rw [Bool.not_eq_true'] at hB
          exact hB.2
        · rw [if_neg hB] at h1
          omega
      · have h2 : 0 < m₂ := by omega
        rw [hm₂] at h2
        rw [List.countP_pos_iff] at h2
        obtain ⟨d, hd, hpred⟩ := h2
        simp only [Bool.and_eq_true, beq_iff_eq, Bool.not_eq_true'] at hpred
        rw [← hpred.1.1]
        exact hpred.2
    refine ⟨hmem, by omega, ?_⟩
    have hb1 : m₁ ≤ ps₁.countP (fun p => isNbrOf p k) := by
      rw [hm₁, sumTallyCnt_eq]
      by_cases hB : (k.inRange && !memLive cells k) = true
      · rw [if_pos hB]
      · rw [if_neg hB]
        omega
    have hb2 : m₂ ≤ if isNbrOf p k then 1 else 0 := by
      have hsub : ds₁.Sublist directions := by
        rw [hdirs]
        exact List.sublist_append_left ds₁ ds₂
      refine le_trans (hsub.countP_le _) ?_
      have : directions.countP
          (fun d => padd p d == k && inRangeXY (p.x + d.x) (p.y + d.y) &&
            !memLive cells (padd p d)) = dirTallyCnt cells p k := rfl
      rw [this, dirTallyCnt_eq]
      by_cases hn : isNbrOf p k = true
      · by_cases hB : (k.inRange && !memLive cells k) = true <;>
          simp [hn, hB]
      · rw [Bool.not_eq_true] at hn
        simp [hn]
    have hb3 : ps₁.countP (fun p => isNbrOf p k) + (if isNbrOf p k then 1 else 0) ≤
        (cells.map Cell.point).countP (fun p => isNbrOf p k) := by
      rw [hsplit, List.countP_append, List.countP_cons]
      by_cases hn : isNbrOf p k = true
      · simp only [hn, if_true]
        omega
      · rw [Bool.not_eq_true] at hn
        simp only [hn, Bool.false_eq_true, if_false]
        omega
    have hb4 : (cells.map Cell.point).countP (fun p => isNbrOf p k) ≤ 8 :=
      countP_isNbrOf_le_8 _ hnodup k
    omega
  · intro k v hget
    rw [calculateNextGen_get cells [], show tallyGet? [] k = none from rfl,
      sumTallyCnt_eq] at hget
    by_cases hB : (k.inRange && !memLive cells k) = true
    · rw [if_pos hB, addCnt_none_some] at hget
      obtain ⟨hv, hne⟩ := hget
      rw [Bool.and_eq_true, Bool.not_eq_true'] at hB
      refine ⟨hB.2, by omega, ?_⟩
      rw [hv]
      exact countP_isNbrOf_le_8 _ hnodup k
    · rw [if_neg hB, addCnt_none_some] at hget
      exact absurd rfl hget.2

theorem claim_C4_witness :
    tallyInv [⟨⟨0, 0⟩, none⟩, ⟨⟨1, 0⟩, none⟩, ⟨⟨2, 0⟩, none⟩]
      (([⟨1, 0⟩, ⟨1, 1⟩, ⟨0, 1⟩] : List Point).foldl
        (glnStep (([⟨0, 0⟩] : List Point).foldl cngStep
          ([⟨⟨0, 0⟩, none⟩, ⟨⟨1, 0⟩, none⟩, ⟨⟨2, 0⟩, none⟩], [])).1 ⟨1, 0⟩)
        (0, (([⟨0, 0⟩] : List Point).foldl cngStep
          ([⟨⟨0, 0⟩, none⟩, ⟨⟨1, 0⟩, none⟩, ⟨⟨2, 0⟩, none⟩], [])).2)).2 ∧
    tallyInv [⟨⟨0, 0⟩, none⟩, ⟨⟨1, 0⟩, none⟩, ⟨⟨2, 0⟩, none⟩]
      (calculateNextGen [⟨⟨0, 0⟩, none⟩, ⟨⟨1, 0⟩, none⟩, ⟨⟨2, 0⟩, none⟩] []).2 ∧
    (runNextGeneration
      { liveCells := [⟨⟨0, 0⟩, none⟩, ⟨⟨1, 0⟩, none⟩, ⟨⟨2, 0⟩, none⟩],
        deadCellNeighborCounts := [], numOfGenerations := 1,
        currentGeneration := 0 }).deadCellNeighborCounts = [] := by
  have h := claim_C4 [⟨⟨0, 0⟩, none⟩, ⟨⟨1, 0⟩, none⟩, ⟨⟨2, 0⟩, none⟩] 1 0
    (by decide)
  exact ⟨h.1 [⟨0, 0⟩] [⟨2, 0⟩] ⟨1, 0⟩ [⟨1, 0⟩, ⟨1, 1⟩, ⟨0, 1⟩]
    [⟨-1, 1⟩, ⟨-1, 0⟩, ⟨-1, -1⟩, ⟨0, -1⟩, ⟨1, -1⟩] (by decide) (by decide),
    h.2.1, h.2.2⟩

/-! ## The Except-valued embedding never raises (claim C2 support) -/

theorem mkPoint_ok_of_inRange (x y : Int) (h : inRangeXY x y = true) :
    mkPoint x y = .ok ⟨x, y⟩ := by
  rw [mkPoint, if_pos h]

theorem directionsE_ok : directionsE = .ok directions := by rfl

theorem glnStepE_ok (cells : List Cell) (p : Point) (acc : Nat × Tally)
    (d : Point) : glnStepE cells p acc d = .ok (glnStep cells p acc d) := by
  simp only [glnStepE, glnStep]
  by_cases h1 : inRangeXY (p.x + d.x) (p.y + d.y) = true
  · rw [if_pos h1, if_pos h1, mkPoint_ok_of_inRange _ _ h1]
    show (if memLive cells (⟨p.x + d.x, p.y + d.y⟩ : Point) then
        (pure (acc.1 + 1, acc.2) : Except String (Nat × Tally))
      else pure (acc.1, tallyIncr acc.2 ⟨p.x + d.x, p.y + d.y⟩)) = _
    by_cases h2 : memLive cells (⟨p.x + d.x, p.y + d.y⟩ : Point) = true
    · rw [if_pos h2, if_pos h2]
      rfl
    · rw [if_neg h2, if_neg h2]
      rfl
  · rw [if_neg h1, if_neg h1]
    rfl

theorem foldlM_ok {α β : Type} (f : β → α → β) (fE : β → α → Except String β)
    (hf : ∀ b a, fE b a = .ok (f b a)) :
    ∀ (l : List α) (b : β), l.foldlM fE b = .ok (l.foldl f b) := by
  intro l
  induction l with
  | nil => intro b; rfl
  | cons a l ih =>
    intro b
    rw [List.foldlM_cons, hf, List.foldl_cons]
    exact ih (f b a)

theorem getLiveNeighborsE_ok (cells : List Cell) (p : Point) (t : Tally) :
    getLiveNeighborsE cells p t = .ok (getLiveNeighbors cells p t) := by
  unfold getLiveNeighborsE getLiveNeighbors
  rw [directionsE_ok]
  show directions.foldlM (glnStepE cells p) (0, t) = _
  exact foldlM_ok _ _ (glnStepE_ok cells p) directions (0, t)

theorem calculateNextGenE_ok (cells : List Cell) (t : Tally) :
    calculateNextGenE cells t = .ok (calculateNextGen cells t) := by
  unfold calculateNextGenE calculateNextGen
  refine foldlM_ok cngStep _ ?_ (cells.map Cell.point) (cells, t)
  intro acc p
  rw [getLiveNeighborsE_ok]
  rfl

theorem runNextGenerationE_ok (g : GameOfLife) :
    runNextGenerationE g = .ok (runNextGeneration g) := by
  unfold runNextGenerationE runNextGeneration
  rw [calculateNextGenE_ok]
  rfl

/-! ## All coordinates built by a step are in range -/

theorem tallyEntries_inRange_incr (t : Tally) (k : Point)
    (h : ∀ e ∈ t, (e : Point × Nat).1.inRange = true) (hk : k.inRange = true) :
    ∀ e ∈ tallyIncr t k, (e : Point × Nat).1.inRange = true := by
  induction t with
  | nil =>
    intro e he
    simp only [tallyIncr, List.mem_singleton] at he
    rw [he]
    exact hk
  | cons e0 t ih =>
    intro e he
    simp only [tallyIncr] at he
    by_cases h0 : e0.1 = k
    · rw [if_pos h0] at he
      rcases List.mem_cons.mp he with rfl | hm
      · show e0.1.inRange = true
        exact h e0 (by simp)
      · exact h e (List.mem_cons_of_mem _ hm)
    · rw [if_neg h0] at he
      rcases List.mem_cons.mp he with rfl | hm
      · exact h e (by simp)
      · exact ih (fun e' he' => h e' (List.mem_cons_of_mem _ he')) e hm

theorem tallyEntries_inRange_glnStep (cells : List Cell) (p : Point)
    (acc : Nat × Tally) (d : Point)
    (h : ∀ e ∈ acc.2, (e : Point × Nat).1.inRange = true) :
    ∀ e ∈ (glnStep cells p acc d).2, (e : Point × Nat).1.inRange = true := by
  rw [glnStep_snd]
  by_cases hb : (inRangeXY (p.x + d.x) (p.y + d.y) &&
      !memLive cells (padd p d)) = true
  · rw [if_pos hb]
    rw [Bool.and_eq_true] at hb
    exact tallyEntries_inRange_incr acc.2 (padd p d) h hb.1
  · rwa [if_neg hb]

theorem tallyEntries_inRange_glnFold (ds : List Point) (cells : List Cell)
    (p : Point) :
    ∀ acc : Nat × Tally, (∀ e ∈ acc.2, (e : Point × Nat).1.inRange = true) →
      ∀ e ∈ (ds.foldl (glnStep cells p) acc).2,
        (e : Point × Nat).1.inRange = true := by
  induction ds with
  | nil => intro acc h; exact h
  | cons d ds ih =>
    intro acc h
    rw [List.foldl_cons]
    exact ih _ (tallyEntries_inRange_glnStep cells p acc d h)

theorem tallyEntries_inRange_cngFold (ps : List Point) :
    ∀ acc : List Cell × Tally, (∀ e ∈ acc.2, (e : Point × Nat).1.inRange = true) →
      ∀ e ∈ (ps.foldl cngStep acc).2, (e : Point × Nat).1.inRange = true := by
  induction ps with
  | nil => intro acc h; exact h
  | cons p ps ih =>
    intro acc h
    rw [List.foldl_cons]
    refine ih _ ?_
    show ∀ e ∈ (directions.foldl (glnStep acc.1 p) (0, acc.2)).2, _
    exact tallyEntries_inRange_glnFold directions acc.1 p (0, acc.2) h

theorem tallyEntries_inRange_calculateNextGen (cells : List Cell) :
    ∀ e ∈ (calculateNextGen cells []).2, (e : Point × Nat).1.inRange = true := by
  unfold calculateNextGen
  exact tallyEntries_inRange_cngFold (cells.map Cell.point) (cells, [])
    (by intro e he; exact absurd he (List.not_mem_nil e))

theorem tallyGet?_mem (t : Tally) (k : Point) (v : Nat)
    (h : tallyGet? t k = some v) : (k, v) ∈ t := by
  induction t with
  | nil => exact Option.noConfusion h
  | cons e t ih =>
    simp only [tallyGet?] at h
    by_cases he : e.1 = k
    · rw [if_pos he] at h
      injection h with hv
      refine List.mem_cons.mpr (Or.inl ?_)
      rw [Prod.ext_iff]
      exact ⟨he.symm, hv.symm⟩
    · rw [if_neg he] at h
      exact List.mem_cons_of_mem _ (ih h)

/-- Claim C2: for a live set of in-range coordinates, stepping never
raises (the fully `Except`-threaded step returns `ok` of the pure step),
every coordinate it constructs stays inside `[MIN_I64, MAX_I64]` (all
result cells and all tally keys are in range), and for a live cell at
`x = MAX_I64` the overflowing neighbor direction is silently excluded:
`Point` construction at `x = MAX_I64 + 1` errors, no such coordinate is
ever a tally key, and the cell's live-neighbor count ranges over at most
the 5 non-overflowing candidate directions. -/
theorem claim_C2 :
    ∀ (cells : List Cell) (t : Tally) (n gen : Int),
      (∀ c ∈ cells, c.point.inRange = true) →
      (runNextGenerationE
          { liveCells := cells, deadCellNeighborCounts := t,
            numOfGenerations := n, currentGeneration := gen } =
        .ok (runNextGeneration
          { liveCells := cells, deadCellNeighborCounts := t,
            numOfGenerations := n, currentGeneration := gen })) ∧
      (∀ c' ∈ (runNextGeneration
          { liveCells := cells, deadCellNeighborCounts := [],
            numOfGenerations := n, currentGeneration := gen }).liveCells,
        c'.point.inRange = true) ∧
      (∀ (k : Point) (v : Nat),
        tallyGet? (calculateNextGen cells []).2 k = some v →
          k.inRange = true) ∧
      (∀ c ∈ cells, c.point.x = INT64_MAX →
        (∀ yy : Int, mkPoint (c.point.x + 1) yy =
          .error
            "X and Y coordinates must be within the 64-bit signed integer range.") ∧
        (∀ yy : Int,
          tallyGet? (calculateNextGen cells []).2 ⟨c.point.x + 1, yy⟩ = none) ∧
        (getLiveNeighbors cells c.point []).1 ≤ 5) := by
  intro cells t n gen hrange
  have hkey : ∀ (k : Point) (v : Nat),
      tallyGet? (calculateNextGen cells []).2 k = some v → k.inRange = true :=
    fun k v h =>
      tallyEntries_inRange_calculateNextGen cells (k, v) (tallyGet?_mem _ _ _ h)
  refine ⟨runNextGenerationE_ok _, ?_, hkey, ?_⟩
  · intro c' hc'
    have hq : c'.point ∈ (runNextGeneration
        { liveCells := cells, deadCellNeighborCounts := [],
          numOfGenerations := n, currentGeneration := gen }).liveCells.map
        Cell.point := List.mem_map_of_mem Cell.point hc'
    have hphase : (runNextGeneration
        { liveCells := cells, deadCellNeighborCounts := [],
          numOfGenerations := n, currentGeneration := gen }).liveCells =
        resetNextGen
          (createNewCells (removeDeadCells (calculateNextGen cells []).1)
            (calculateNextGen cells []).2).1 := rfl
    have hcreate : (createNewCells
        (removeDeadCells (calculateNextGen cells []).1)
        (calculateNextGen cells []).2).1 =
        ((calculateNextGen cells []).2.filter (fun e => e.2 == 3)).foldl
          (fun cs e => setAdd cs ⟨e.1, some true⟩)
          (removeDeadCells (calculateNextGen cells []).1) := rfl
    rw [hphase, map_point_reset, hcreate, mem_setAddFold] at hq
    rcases hq with hq | ⟨e, he, hpt⟩
    · rw [mem_removeDead_iff] at hq
      have hq2 := hq.1
      have hpts : (calculateNextGen cells []).1.map Cell.point =
          cells.map Cell.point := by
        unfold calculateNextGen
        exact map_point_cngFold _ cells []
      rw [hpts] at hq2
      obtain ⟨c₀, hc₀, hpt⟩ := List.mem_map.mp hq2
      rw [← hpt]
      exact hrange c₀ hc₀
    · rw [List.mem_filter] at he
      rw [← hpt]
      exact tallyEntries_inRange_calculateNextGen cells e he.1
  · intro c hc hx
    have hxf : ∀ yy : Int, inRangeXY (c.point.x + 1) yy = false := by
      intro yy
      unfold inRangeXY
      have hd : decide (c.point.x + 1 ≤ INT64_MAX) = false := by
        rw [decide_eq_false]
        rw [hx]
        omega
      rw [hd]
      simp
    refine ⟨?_, ?_, ?_⟩
    · intro yy
      rw [mkPoint, if_neg (by rw [hxf yy]; exact Bool.noConfusion)]
    · intro yy
      cases hg : tallyGet? (calculateNextGen cells []).2 ⟨c.point.x + 1, yy⟩ with
      | none => rfl
      | some v =>
        exfalso
        have hr := hkey _ _ hg
        rw [show Point.inRange (⟨c.point.x + 1, yy⟩ : Point) =
          inRangeXY (c.point.x + 1) yy from rfl, hxf yy] at hr
        exact Bool.noConfusion hr
    · rw [getLiveNeighbors, glnFold_fst]
      have hmono : directions.countP
          (fun d => inRangeXY (c.point.x + d.x) (c.point.y + d.y) &&
            memLive cells (padd c.point d)) ≤
          directions.countP (fun d => decide (¬d.x = 1)) := by
        refine List.countP_mono_left ?_
        intro d _ hp
        rw [Bool.and_eq_true] at hp
        have hp1 := hp.1
        unfold inRangeXY at hp1
        rw [Bool.and_eq_true, Bool.and_eq_true, Bool.and_eq_true] at hp1
        have hle : c.point.x + d.x ≤ INT64_MAX := by
          have := hp1.1.1.1
          rwa [decide_eq_true_eq] at this
        rw [decide_eq_true_eq]
        rw [hx] at hle
        omega
      refine le_trans (by omega) (le_trans hmono ?_)
      decide

theorem claim_C2_witness :
    (runNextGenerationE
        { liveCells := [⟨⟨INT64_MAX, 0⟩, none⟩], deadCellNeighborCounts := [],
          numOfGenerations := 1, currentGeneration := 0 } =
      .ok (runNextGeneration
        { liveCells := [⟨⟨INT64_MAX, 0⟩, none⟩], deadCellNeighborCounts := [],
          numOfGenerations := 1, currentGeneration := 0 })) ∧
    (∀ c' ∈ (runNextGeneration
        { liveCells := [⟨⟨INT64_MAX, 0⟩, none⟩], deadCellNeighborCounts := [],
          numOfGenerations := 1, currentGeneration := 0 }).liveCells,
      c'.point.inRange = true) ∧
    (∀ (k : Point) (v : Nat),
      tallyGet? (calculateNextGen [⟨⟨INT64_MAX, 0⟩, none⟩] []).2 k = some v →
        k.inRange = true) ∧
    (∀ c ∈ ([⟨⟨INT64_MAX, 0⟩, none⟩] : List Cell), c.point.x = INT64_MAX →
      (∀ yy : Int, mkPoint (c.point.x + 1) yy =
        .error
          "X and Y coordinates must be within the 64-bit signed integer range.") ∧
      (∀ yy : Int,
        tallyGet? (calculateNextGen [⟨⟨INT64_MAX, 0⟩, none⟩] []).2
          ⟨c.point.x + 1, yy⟩ = none) ∧
      (getLiveNeighbors [⟨⟨INT64_MAX, 0⟩, none⟩] c.point []).1 ≤ 5) :=
  claim_C2 [⟨⟨INT64_MAX, 0⟩, none⟩] [] 1 0 (by decide)

/-! ## Decimal rendering and parsing round trip -/

theorem digitCh_isDigit (n : Nat) (h : n < 10) : isDigitCh (digitCh n) = true := by
  interval_cases n <;> decide

theorem digitCh_toNat (n : Nat) (h : n < 10) : (digitCh n).toNat = 48 + n := by
  interval_cases n <;> decide

theorem isDigitCh_props (c : Char) (h : isDigitCh c = true) :
    isPySpace c = false ∧ ¬c = '-' ∧ ¬c = '+' ∧ ¬c = '\n' ∧ ¬c = ' ' := by
  unfold isDigitCh at h
  rw [Bool.and_eq_true, decide_eq_true_eq, decide_eq_true_eq] at h
  refine ⟨?_, ?_, ?_, ?_, ?_⟩
  · unfold isPySpace
    rw [Bool.eq_false_iff]
    intro hb
    simp at hb
    omega
  · intro he
    rw [he] at h
    exact absurd h.1 (by decide)
  · intro he
    rw [he] at h
    exact absurd h.1 (by decide)
  · intro he
    rw [he] at h
    exact absurd h.1 (by decide)
  · intro he
    rw [he] at h
    exact absurd h.1 (by decide)

theorem natChars_all_digit : ∀ (f n : Nat), ∀ c ∈ natChars f n, isDigitCh c = true := by
  intro f
  induction f with
  | zero => intro n c hc; exact absurd hc (List.not_mem_nil c)
  | succ f ih =>
    intro n c hc
    simp only [natChars] at hc
    by_cases hn : n < 10
    · rw [if_pos hn] at hc
      rw [List.mem_singleton] at hc
      rw [hc]
      exact digitCh_isDigit n hn
    · rw [if_neg hn] at hc
      rcases List.mem_append.mp hc with hm | hm
      · exact ih (n / 10) c hm
      · rw [List.mem_singleton] at hm
        rw [hm]
        exact digitCh_isDigit (n % 10) (Nat.mod_lt n (by omega))

theorem natChars_cons : ∀ (f n : Nat), ∃ c cs,
    natChars (f + 1) n = c :: cs ∧ isDigitCh c = true := by
  intro f
  induction f with
  | zero =>
    intro n
    simp only [natChars]
    by_cases hn : n < 10
    · rw [if_pos hn]
      exact ⟨digitCh n, [], rfl, digitCh_isDigit n hn⟩
    · rw [if_neg hn]
      exact ⟨digitCh (n % 10), [], rfl,
        digitCh_isDigit (n % 10) (Nat.mod_lt n (by omega))⟩
  | succ f ih =>
    intro n
    by_cases hn : n < 10
    · refine ⟨digitCh n, [], ?_, digitCh_isDigit n hn⟩
      simp only [natChars]
      rw [if_pos hn]
    · obtain ⟨c, cs, heq, hdig⟩ := ih (n / 10)
      refine ⟨c, cs ++ [digitCh (n % 10)], ?_, hdig⟩
      have hunf : natChars (f + 1 + 1) n =
          if n < 10 then [digitCh n]
          else natChars (f + 1) (n / 10) ++ [digitCh (n % 10)] := rfl
      rw [hunf, if_neg hn, heq]
      rfl

theorem digitsValAux_append (l₁ : List Char) :
    ∀ (acc : Nat) (l₂ : List Char),
      digitsValAux acc (l₁ ++ l₂) =
        match digitsValAux acc l₁ with
        | some a => digitsValAux a l₂
        | none => none := by
  induction l₁ with
  | nil => intro acc l₂; rfl
  | cons c cs ih =>
    intro acc l₂
    rw [List.cons_append]
    have h1 : digitsValAux acc (c :: (cs ++ l₂)) =
        if isDigitCh c then digitsValAux (acc * 10 + (c.toNat - 48)) (cs ++ l₂)
        else none := rfl
    have h2 : digitsValAux acc (c :: cs) =
        if isDigitCh c then digitsValAux (acc * 10 + (c.toNat - 48)) cs
        else none := rfl
    rw [h1, h2]
    by_cases hc : isDigitCh c = true
    · rw [if_pos hc, if_pos hc, ih]
    · rw [if_neg hc, if_neg hc]

theorem digitsValAux_natChars : ∀ (f n acc : Nat), n < 10 ^ f →
    digitsValAux acc (natChars f n) =
      some (acc * 10 ^ (natChars f n).length + n) := by
  intro f
  induction f with
  | zero =>
    intro n acc hn
    have : n = 0 := by
      simp only [pow_zero] at hn
      omega
    subst this
    simp [natChars, digitsValAux]
  | succ f ih =>
    intro n acc hn
    simp only [natChars]
    by_cases h10 : n < 10
    · rw [if_pos h10]
      simp only [digitsValAux, digitCh_isDigit n h10, if_true,
        digitCh_toNat n h10]
      simp only [List.length_singleton, pow_one]
      congr 1
      omega
    · rw [if_neg h10]
      have hdiv : n / 10 < 10 ^ f := by
        rw [pow_succ] at hn
        omega
      rw [digitsValAux_append, ih (n / 10) acc hdiv]
      have hm10 : n % 10 < 10 := Nat.mod_lt n (by omega)
      simp only [digitsValAux, digitCh_isDigit (n % 10) hm10, if_true,
        digitCh_toNat (n % 10) hm10]
      rw [List.length_append, List.length_singleton]
      congr 1
      have hmod : n % 10 + 10 * (n / 10) = n := Nat.mod_add_div n 10
      rw [pow_succ]
      ring_nf
      omega

theorem digitsValU_all_digit : ∀ (cs : List Char) (acc : Nat),
    (∀ c ∈ cs, isDigitCh c = true) →
    digitsValU acc cs = digitsValAux acc cs := by
  intro cs
  induction cs with
  | nil => intro acc _; rfl
  | cons c cs ih =>
    intro acc h
    have hc := h c (by simp)
    have h2 : digitsValAux acc (c :: cs) =
        if isDigitCh c = true then digitsValAux (acc * 10 + (c.toNat - 48)) cs
        else none := rfl
    cases cs with
    | nil =>
      have h1 : digitsValU acc [c] =
          if isDigitCh c = true then some (acc * 10 + (c.toNat - 48))
          else none := rfl
      rw [h1, h2, if_pos hc, if_pos hc]
      rfl
    | cons d cs2 =>
      have h1 : digitsValU acc (c :: d :: cs2) =
          if isDigitCh c = true then
            digitsValU (acc * 10 + (c.toNat - 48)) (d :: cs2)
          else if c = '_' then
            if isDigitCh d = true then digitsValU acc (d :: cs2) else none
          else none := rfl
      rw [h1, h2, if_pos hc, if_pos hc]
      exact ih _ (fun x hx => h x (by simp [hx]))

theorem digitsVal?_natStr (n : Nat) : digitsVal? (natStr n) = some n := by
  obtain ⟨c, cs, heq, hdig⟩ := natChars_cons n n
  have hlt : n < 10 ^ (n + 1) :=
    lt_of_lt_of_le (Nat.lt_pow_self (by norm_num) n)
      (Nat.pow_le_pow_right (by norm_num) (by omega))
  have hval := digitsValAux_natChars (n + 1) n 0 hlt
  rw [heq] at hval
  unfold natStr
  rw [heq]
  show (if isDigitCh c = true then digitsValU (c.toNat - 48) cs else none) =
    some n
  rw [if_pos hdig, digitsValU_all_digit cs _
    (fun x hx => natChars_all_digit (n + 1) n x
      (heq ▸ List.mem_cons_of_mem c hx))]
  have h0 : digitsValAux 0 (c :: cs) = digitsValAux (c.toNat - 48) cs := by
    show (if isDigitCh c = true then digitsValAux (0 * 10 + (c.toNat - 48)) cs
      else none) = digitsValAux (c.toNat - 48) cs
    rw [if_pos hdig]
    norm_num
  rw [← h0, hval]
  simp

theorem dropWhile_all_false (p : Char → Bool) (l : List Char)
    (h : ∀ c ∈ l, p c = false) : l.dropWhile p = l := by
  cases l with
  | nil => rfl
  | cons c cs =>
    rw [List.dropWhile_cons, if_neg]
    rw [h c (by simp)]
    exact Bool.noConfusion

theorem dropWhile_append_all_true (p : Char → Bool) (l₁ l₂ : List Char)
    (h : ∀ c ∈ l₁, p c = true) :
    (l₁ ++ l₂).dropWhile p = l₂.dropWhile p := by
  induction l₁ with
  | nil => rfl
  | cons c cs ih =>
    rw [List.cons_append, List.dropWhile_cons, if_pos (h c (by simp))]
    exact ih (fun c' hc' => h c' (by simp [hc']))

theorem pyStrip_trail (l ws : List Char) (hl : ∀ c ∈ l, isPySpace c = false)
    (hws : ∀ c ∈ ws, isPySpace c = true) : pyStrip (l ++ ws) = l := by
  unfold pyStrip dropTrail
  cases l with
  | nil =>
    have hws0 : ws.dropWhile isPySpace = [] := by
      have h := dropWhile_append_all_true isPySpace ws [] hws
      rwa [List.append_nil] at h
    show (((([] : List Char) ++ ws).dropWhile isPySpace).reverse.dropWhile
      isPySpace).reverse = []
    rw [List.nil_append, hws0]
    rfl
  | cons c cs =>
    have hfront : ((c :: cs) ++ ws).dropWhile isPySpace = (c :: cs) ++ ws := by
      rw [List.cons_append, List.dropWhile_cons, if_neg]
      rw [hl c (by simp)]
      exact Bool.noConfusion
    rw [hfront, List.reverse_append,
      dropWhile_append_all_true _ ws.reverse (c :: cs).reverse
        (fun c' hc' => hws c' (List.mem_reverse.mp hc')),
      dropWhile_all_false _ _ (fun c' hc' => hl c' (List.mem_reverse.mp hc')),
      List.reverse_reverse]

theorem pyStrip_no_space (l : List Char) (hl : ∀ c ∈ l, isPySpace c = false) :
    pyStrip l = l := by
  have := pyStrip_trail l [] hl (by intro c hc; exact absurd hc (List.not_mem_nil c))
  rwa [List.append_nil] at this

theorem isIntSpace_false (c : Char) (h : isPySpace c = false) :
    isIntSpace c = false := by
  unfold isIntSpace
  rw [h]
  rfl

theorem pyIntStrip_trail (l ws : List Char) (hl : ∀ c ∈ l, isIntSpace c = false)
    (hws : ∀ c ∈ ws, isIntSpace c = true) : pyIntStrip (l ++ ws) = l := by
  unfold pyIntStrip
  cases l with
  | nil =>
    have hws0 : ws.dropWhile isIntSpace = [] := by
      have h := dropWhile_append_all_true isIntSpace ws [] hws
      rwa [List.append_nil] at h
    rw [List.nil_append, hws0]
    rfl
  | cons c cs =>
    have hfront : ((c :: cs) ++ ws).dropWhile isIntSpace = (c :: cs) ++ ws := by
      rw [List.cons_append, List.dropWhile_cons, if_neg]
      rw [hl c (by simp)]
      exact Bool.noConfusion
    rw [hfront, List.reverse_append,
      dropWhile_append_all_true _ ws.reverse (c :: cs).reverse
        (fun c' hc' => hws c' (List.mem_reverse.mp hc')),
      dropWhile_all_false _ _ (fun c' hc' => hl c' (List.mem_reverse.mp hc')),
      List.reverse_reverse]

theorem intStr_chars (i : Int) :
    ∀ c ∈ intStr i, isPySpace c = false ∧ ¬c = '\n' ∧ ¬c = ' ' := by
  intro c hc
  unfold intStr at hc
  have hdig : isDigitCh c = true ∨ c = '-' := by
    by_cases hi : i < 0
    · rw [if_pos hi] at hc
      rcases List.mem_cons.mp hc with rfl | hm
      · exact Or.inr rfl
      · exact Or.inl (natChars_all_digit _ _ c hm)
    · rw [if_neg hi] at hc
      exact Or.inl (natChars_all_digit _ _ c hc)
  rcases hdig with hd | rfl
  · obtain ⟨h1, _, _, h4, h5⟩ := isDigitCh_props c hd
    exact ⟨h1, h4, h5⟩
  · refine ⟨by decide, by decide, by decide⟩

theorem pyInt?_stripped (s : List Char) (c : Char) (ds : List Char)
    (h : pyIntStrip s = c :: ds) :
    pyInt? s =
      if c = '-' then (digitsVal? ds).map (fun n => -(n : Int))
      else if c = '+' then (digitsVal? ds).map (fun n => (n : Int))
      else (digitsVal? (c :: ds)).map (fun n => (n : Int)) := by
  unfold pyInt?
  rw [h]

theorem pyInt?_intStr (i : Int) (ws : List Char)
    (hws : ∀ c ∈ ws, isIntSpace c = true) :
    pyInt? (intStr i ++ ws) = some i := by
  have hstrip : pyIntStrip (intStr i ++ ws) = intStr i :=
    pyIntStrip_trail _ _
      (fun c hc => isIntSpace_false c (intStr_chars i c hc).1) hws
  by_cases hi : i < 0
  · have heq : intStr i = '-' :: natStr (-i).toNat := by
      unfold intStr
      rw [if_pos hi]
    rw [pyInt?_stripped _ '-' (natStr (-i).toNat) (by rw [hstrip, heq]),
      if_pos rfl, digitsVal?_natStr]
    show some (-(((-i).toNat : Int))) = some i
    rw [Int.toNat_of_nonneg (by omega), neg_neg]
  · obtain ⟨c, cs, hcons, hdig⟩ := natChars_cons i.toNat i.toNat
    have heq : intStr i = c :: cs := by
      unfold intStr
      rw [if_neg hi]
      exact hcons
    obtain ⟨_, hm, hp, _, _⟩ := isDigitCh_props c hdig
    rw [pyInt?_stripped _ c cs (by rw [hstrip, heq]), if_neg hm, if_neg hp,
      show (c :: cs) = natStr i.toNat from hcons.symm, digitsVal?_natStr]
    show some ((i.toNat : Int)) = some i
    rw [Int.toNat_of_nonneg (by omega)]

/-! ## Splitting lemmas -/

theorem splitSp_ne_nil (l : List Char) : splitSp l ≠ [] := by
  cases l with
  | nil => simp [splitSp]
  | cons c cs =>
    simp only [splitSp]
    by_cases hc : c = ' '
    · rw [if_pos hc]
      simp
    · rw [if_neg hc]
      cases h : splitSp cs <;> simp

theorem splitSp_no_space (l : List Char) (h : ∀ c ∈ l, ¬c = ' ') :
    splitSp l = [l] := by
  induction l with
  | nil => rfl
  | cons c cs ih =>
    simp only [splitSp]
    rw [if_neg (h c (by simp)), ih (fun c' hc' => h c' (by simp [hc']))]

theorem splitSp_append (w v : List Char) (hw : ∀ c ∈ w, ¬c = ' ') :
    splitSp (w ++ ' ' :: v) = w :: splitSp v := by
  induction w with
  | nil =>
    rw [List.nil_append]
    simp only [splitSp]
    simp
  | cons c cs ih =>
    rw [List.cons_append]
    simp only [splitSp]
    rw [if_neg (hw c (by simp)), ih (fun c' hc' => hw c' (by simp [hc']))]

/-! ## Line splitting (`readlines`) -/

theorem linesOfChars_append (w rest : List Char) (hw : ∀ c ∈ w, ¬c = '\n') :
    linesOfChars (w ++ '\n' :: rest) = (w ++ ['\n']) :: linesOfChars rest := by
  induction w with
  | nil =>
    rw [List.nil_append]
    simp only [linesOfChars]
    simp
  | cons c cs ih =>
    rw [List.cons_append]
    simp only [linesOfChars]
    rw [if_neg (hw c (by simp)), ih (fun c' hc' => hw c' (by simp [hc']))]
    rfl

theorem foldl_append_acc (l : List Cell) :
    ∀ acc : List Char,
      l.foldl (fun a c => a ++ cellLine c) acc = acc ++ (l.map cellLine).join := by
  induction l with
  | nil => intro acc; simp
  | cons c cs ih =>
    intro acc
    rw [List.foldl_cons, ih, List.map_cons, List.append_assoc]
    rfl

theorem cellLine_split (c : Cell) :
    cellLine c = (intStr c.point.x ++ ' ' :: intStr c.point.y) ++ ['\n'] := by
  unfold cellLine
  simp [List.append_assoc]

theorem cellLine_no_newline (c : Cell) :
    ∀ ch ∈ intStr c.point.x ++ ' ' :: intStr c.point.y, ¬ch = '\n' := by
  intro ch hch
  rcases List.mem_append.mp hch with hm | hm
  · exact (intStr_chars _ ch hm).2.1
  · rcases List.mem_cons.mp hm with rfl | hm'
    · decide
    · exact (intStr_chars _ ch hm').2.1

theorem linesOfChars_join (cells : List Cell) :
    linesOfChars ((cells.map cellLine).join) = cells.map cellLine := by
  induction cells with
  | nil => rfl
  | cons c cs ih =>
    show linesOfChars (cellLine c ++ (cs.map cellLine).join) =
      cellLine c :: cs.map cellLine
    rw [cellLine_split, List.append_assoc, List.singleton_append,
      linesOfChars_append _ _ (cellLine_no_newline c), ih, ← cellLine_split]

theorem linesOfChars_golStr (g : GameOfLife) :
    linesOfChars (golStr g) =
      (headerChars ++ ['\n']) :: g.liveCells.map cellLine := by
  unfold golStr
  rw [foldl_append_acc, List.append_assoc, List.singleton_append,
    linesOfChars_append headerChars _ (by decide), linesOfChars_join]

/-! ## Parsing a serialized cell line -/

theorem parseLine_eq_mkPoint (line : List Char) (t0 t1 : List Char)
    (rest : List (List Char)) (x y : Int)
    (hs : splitSp line = t0 :: t1 :: rest)
    (hx : pyInt? t0 = some x) (hy : pyInt? t1 = some y) :
    parseLine line = mkPoint x y := by
  unfold parseLine
  rw [hs]
  rw [show (t0 :: t1 :: rest).headD [] = t0 from rfl, hx]
  show (match (t0 :: t1 :: rest)[1]? with
    | none => (Except.error "IndexError: list index out of range" :
        Except String Point)
    | some t1 =>
      match pyInt? t1 with
      | none => Except.error "ValueError: invalid literal for int"
      | some y => mkPoint x y) = mkPoint x y
  rw [show (t0 :: t1 :: rest)[1]? = some t1 from by simp]
  show (match pyInt? t1 with
    | none => (Except.error "ValueError: invalid literal for int" :
        Except String Point)
    | some y => mkPoint x y) = mkPoint x y
  rw [hy]

theorem parseLine_cellLine (c : Cell) (h : c.point.inRange = true) :
    parseLine (cellLine c) = .ok c.point := by
  have hcl : cellLine c =
      intStr c.point.x ++ ' ' :: (intStr c.point.y ++ ['\n']) := by
    simp [cellLine]
  have hsplit : splitSp (cellLine c) =
      [intStr c.point.x, intStr c.point.y ++ ['\n']] := by
    rw [hcl, splitSp_append _ _ (fun ch hch => (intStr_chars _ ch hch).2.2),
      splitSp_no_space _ ?hns]
    case hns =>
      intro ch hch
      rcases List.mem_append.mp hch with hm | hm
      · exact (intStr_chars _ ch hm).2.2
      · rw [List.mem_singleton] at hm
        rw [hm]
        decide
  have hx : pyInt? (intStr c.point.x) = some c.point.x := by
    have h0 := pyInt?_intStr c.point.x []
      (by intro ch hch; exact absurd hch (List.not_mem_nil ch))
    rwa [List.append_nil] at h0
  have hy : pyInt? (intStr c.point.y ++ ['\n']) = some c.point.y :=
    pyInt?_intStr c.point.y ['\n'] (by decide)
  rw [parseLine_eq_mkPoint (cellLine c) _ _ [] c.point.x c.point.y hsplit hx hy,
    mkPoint_ok_of_inRange _ _ h]

theorem readFold_serialized (cellsSer : List Cell)
    (hrange : ∀ c ∈ cellsSer, c.point.inRange = true) :
    ∀ acc : List Cell,
      (cellsSer.map cellLine).foldlM addLine acc =
        .ok (cellsSer.foldl (fun a c => setAdd a ⟨c.point, none⟩) acc) := by
  induction cellsSer with
  | nil => intro acc; rfl
  | cons c cs ih =>
    intro acc
    rw [List.map_cons, List.foldlM_cons]
    have haddl : addLine acc (cellLine c) = .ok (setAdd acc ⟨c.point, none⟩) := by
      unfold addLine
      rw [parseLine_cellLine c (hrange c (by simp))]
      rfl
    rw [haddl]
    show (cs.map cellLine).foldlM addLine (setAdd acc ⟨c.point, none⟩) = _
    rw [ih (fun c' hc' => hrange c' (by simp [hc']))]
    rfl

theorem mem_setAddFold2 (l : List Cell) :
    ∀ (cs : List Cell) (q : Point),
      q ∈ (l.foldl (fun a c => setAdd a ⟨c.point, none⟩) cs).map Cell.point ↔
        q ∈ cs.map Cell.point ∨ ∃ c ∈ l, c.point = q := by
  induction l with
  | nil => simp
  | cons c cs ih =>
    intro acc q
    rw [List.foldl_cons, ih, mem_setAdd]
    simp only [List.mem_cons]
    constructor
    · rintro ((h | rfl) | ⟨e, he, rfl⟩)
      · exact Or.inl h
      · exact Or.inr ⟨c, Or.inl rfl, rfl⟩
      · exact Or.inr ⟨e, Or.inr he, rfl⟩
    · rintro (h | ⟨e, he | he, rfl⟩)
      · exact Or.inl (Or.inl h)
      · exact Or.inl (Or.inr (by rw [he]))
      · exact Or.inr ⟨e, he, rfl⟩

/-- Claim C6: serializing a live set of valid coordinates in the
Life 1.06 text format (`__str__`: header line then one `x y` line per
cell) and reading that text back (`readlines` + `readLiveCellFile`)
succeeds and yields a set of cells with exactly the original points,
regardless of iteration order (stated as equality of point sets). -/
theorem claim_C6 :
    ∀ g : GameOfLife, (∀ c ∈ g.liveCells, c.point.inRange = true) →
      ∃ cells : List Cell,
        readLiveCellFile (linesOfChars (golStr g)) = .ok cells ∧
        pointsOf cells = pointsOf g.liveCells := by
  intro g hr
  rw [linesOfChars_golStr]
  refine ⟨g.liveCells.foldl (fun a c => setAdd a ⟨c.point, none⟩) [], ?_, ?_⟩
  · show (if pyStrip (headerChars ++ ['\n']) = headerChars then
        (g.liveCells.map cellLine).foldlM addLine []
      else Except.error
        "Life files must be in Life 1.06 format and contain the header") = _
    rw [if_pos (by decide)]
    exact readFold_serialized g.liveCells hr []
  · unfold pointsOf
    ext q
    rw [List.mem_toFinset, List.mem_toFinset, mem_setAddFold2]
    simp [List.mem_map]

theorem claim_C6_witness :
    ∃ cells : List Cell,
      readLiveCellFile (linesOfChars (golStr
        { liveCells := [⟨⟨5, -3⟩, none⟩], deadCellNeighborCounts := [],
          numOfGenerations := 0, currentGeneration := 0 })) = .ok cells ∧
      pointsOf cells = pointsOf
        ({ liveCells := [⟨⟨5, -3⟩, none⟩], deadCellNeighborCounts := [],
           numOfGenerations := 0, currentGeneration := 0 } :
          GameOfLife).liveCells :=
  claim_C6
    { liveCells := [⟨⟨5, -3⟩, none⟩], deadCellNeighborCounts := [],
      numOfGenerations := 0, currentGeneration := 0 } (by decide)

/-! ## File reading: success and failure characterization (claim C8) -/

theorem parseLine_ok_iff_good (line : List Char) :
    (∃ p, parseLine line = .ok p) ↔ goodLineB line = true := by
  cases hs : splitSp line with
  | nil => exact absurd hs (splitSp_ne_nil line)
  | cons t0 rest =>
    unfold parseLine goodLineB
    rw [hs, show (t0 :: rest).headD [] = t0 from rfl]
    cases rest with
    | nil =>
      rw [show (t0 :: ([] : List (List Char)))[1]? = (none : Option (List Char))
        from by simp]
      constructor
      · rintro ⟨p, hp⟩
        exfalso
        cases hx : pyInt? t0 with
        | none =>
          rw [hx] at hp
          exact Except.noConfusion hp
        | some x =>
          rw [hx] at hp
          exact Except.noConfusion hp
      · intro hb
        exact Bool.noConfusion hb
    | cons t1 rest2 =>
      rw [show (t0 :: t1 :: rest2)[1]? = some t1 from by simp]
      show (∃ p, (match pyInt? t0 with
          | none => (Except.error "ValueError: invalid literal for int" :
              Except String Point)
          | some x =>
            match pyInt? t1 with
            | none => Except.error "ValueError: invalid literal for int"
            | some y => mkPoint x y) = Except.ok p) ↔
        (match pyInt? t0 with
          | none => false
          | some x =>
            match pyInt? t1 with
            | none => false
            | some y => inRangeXY x y) = true
      cases hx : pyInt? t0 with
      | none =>
        constructor
        · rintro ⟨p, hp⟩
          exact Except.noConfusion hp
        · intro hb
          exact Bool.noConfusion hb
      | some x =>
        cases hy : pyInt? t1 with
        | none =>
          constructor
          · rintro ⟨p, hp⟩
            exact Except.noConfusion hp
          · intro hb
            exact Bool.noConfusion hb
        | some y =>
          unfold mkPoint
          show (∃ p, (if inRangeXY x y = true then Except.ok (⟨x, y⟩ : Point)
              else (Except.error
                "X and Y coordinates must be within the 64-bit signed integer range." :
                Except String Point)) = Except.ok p) ↔ inRangeXY x y = true
          by_cases hr : inRangeXY x y = true
          · rw [if_pos hr]
            exact ⟨fun _ => hr, fun _ => ⟨⟨x, y⟩, rfl⟩⟩
          · rw [if_neg hr]
            constructor
            · rintro ⟨p, hp⟩
              exact Except.noConfusion hp
            · intro hb
              exact absurd hb hr

theorem parseLine_err_of_bad (line : List Char) (h : goodLineB line = false) :
    ∃ e, parseLine line = .error e := by
  cases hp : parseLine line with
  | ok p =>
    exfalso
    rw [(parseLine_ok_iff_good line).mp ⟨p, hp⟩] at h
    exact Bool.noConfusion h
  | error e => exact ⟨e, rfl⟩

theorem nodup_setAdd (cs : List Cell) (c : Cell)
    (h : (cs.map Cell.point).Nodup) : ((setAdd cs c).map Cell.point).Nodup := by
  unfold setAdd
  by_cases hm : memLive cs c.point = true
  · rwa [if_pos hm]
  · rw [if_neg hm, List.map_append]
    have hnm : c.point ∉ cs.map Cell.point := by
      rw [memLive_eq_mem] at hm
      intro hc
      exact hm (decide_eq_true hc)
    simp [List.nodup_append, h, hnm]

theorem readFold_ok (rest : List (List Char)) :
    ∀ acc : List Cell, (∀ line ∈ rest, goodLineB line = true) →
      ∃ cells, rest.foldlM addLine acc = .ok cells ∧
        (∀ q : Point, q ∈ cells.map Cell.point ↔
          q ∈ acc.map Cell.point ∨ ∃ line ∈ rest, parseLine line = .ok q) ∧
        ((acc.map Cell.point).Nodup → (cells.map Cell.point).Nodup) := by
  induction rest with
  | nil =>
    intro acc _
    exact ⟨acc, rfl, by simp, id⟩
  | cons l rest ih =>
    intro acc hgood
    obtain ⟨p, hp⟩ := (parseLine_ok_iff_good l).mpr (hgood l (by simp))
    have haddl : addLine acc l = .ok (setAdd acc ⟨p, none⟩) := by
      unfold addLine
      rw [hp]
      rfl
    obtain ⟨cells, hc1, hc2, hc3⟩ := ih (setAdd acc ⟨p, none⟩)
      (fun l' hl' => hgood l' (by simp [hl']))
    refine ⟨cells, ?_, ?_, ?_⟩
    · rw [List.foldlM_cons, haddl]
      exact hc1
    · intro q
      rw [hc2 q, mem_setAdd]
      constructor
      · rintro ((h | rfl) | ⟨l', hl', hb⟩)
        · exact Or.inl h
        · exact Or.inr ⟨l, by simp, hp⟩
        · exact Or.inr ⟨l', List.mem_cons_of_mem _ hl', hb⟩
      · rintro (h | ⟨l', hl', hb⟩)
        · exact Or.inl (Or.inl h)
        · rcases List.mem_cons.mp hl' with rfl | hm
          · exact Or.inl (Or.inr (Except.ok.inj (hp.symm.trans hb)).symm)
          · exact Or.inr ⟨l', hm, hb⟩
    · intro hnd
      exact hc3 (nodup_setAdd acc ⟨p, none⟩ hnd)

theorem readFold_err (rest : List (List Char)) :
    ∀ acc : List Cell, (∃ line ∈ rest, goodLineB line = false) →
      ∃ e, rest.foldlM addLine acc = .error e := by
  induction rest with
  | nil =>
    rintro acc ⟨l, hl, _⟩
    exact absurd hl (List.not_mem_nil l)
  | cons l rest ih =>
    rintro acc ⟨l', hl', hbad⟩
    rcases List.mem_cons.mp hl' with rfl | hm
    · obtain ⟨e, he⟩ := parseLine_err_of_bad l' hbad
      refine ⟨e, ?_⟩
      rw [List.foldlM_cons,
        show addLine acc l' = .error e by unfold addLine; rw [he]; rfl]
      rfl
    · cases hp : parseLine l with
      | error e =>
        refine ⟨e, ?_⟩
        rw [List.foldlM_cons,
          show addLine acc l = .error e by unfold addLine; rw [hp]; rfl]
        rfl
      | ok p =>
        obtain ⟨e, he⟩ := ih (setAdd acc ⟨p, none⟩) ⟨l', hm, hbad⟩
        refine ⟨e, ?_⟩
        rw [List.foldlM_cons,
          show addLine acc l = .ok (setAdd acc ⟨p, none⟩) by
            unfold addLine; rw [hp]; rfl]
        exact he

theorem readLiveCellFile_cons (l0 : List Char) (rest : List (List Char)) :
    readLiveCellFile (l0 :: rest) =
      if pyStrip l0 = headerChars then rest.foldlM addLine []
      else .error
        "Life files must be in Life 1.06 format and contain the header" := rfl

/-- Claim C8 (amended): reading fails whenever the whitespace-stripped
first line differs from the literal header `#Life 1.06`, and whenever
some subsequent line's first two space-separated tokens are not integer
literals within the signed 64-bit range; when the stripped first line is
the header and every subsequent line's first two tokens are in-range
integer literals, reading succeeds and returns the set of parsed cells
with duplicates collapsed (distinct points, membership exactly the
parsed coordinates).  Integer literals follow Python's `int()` grammar
(optional surrounding whitespace, optional sign, digits with single
underscores allowed between digits); the coordinate lines are assumed
ASCII, since `int()` additionally accepts non-ASCII decimal digits that
the decimal grammar here does not model. -/
theorem claim_C8_amended :
    ∀ (l0 : List Char) (rest : List (List Char)),
      (∀ line ∈ rest, asciiOnly line = true) →
      (¬pyStrip l0 = headerChars →
        ∃ e, readLiveCellFile (l0 :: rest) = .error e) ∧
      (pyStrip l0 = headerChars → (∃ line ∈ rest, goodLineB line = false) →
        ∃ e, readLiveCellFile (l0 :: rest) = .error e) ∧
      (pyStrip l0 = headerChars → (∀ line ∈ rest, goodLineB line = true) →
        ∃ cells, readLiveCellFile (l0 :: rest) = .ok cells ∧
          (cells.map Cell.point).Nodup ∧
          ∀ q : Point, q ∈ cells.map Cell.point ↔
            ∃ line ∈ rest, parseLine line = .ok q) := by
  intro l0 rest _
  rw [readLiveCellFile_cons]
  refine ⟨?_, ?_, ?_⟩
  · intro h
    rw [if_neg h]
    exact ⟨_, rfl⟩
  · intro h hbad
    rw [if_pos h]
    exact readFold_err rest [] hbad
  · intro h hgood
    rw [if_pos h]
    obtain ⟨cells, h1, h2, h3⟩ := readFold_ok rest [] hgood
    refine ⟨cells, h1, h3 (by simp), fun q => ?_⟩
    rw [h2 q]
    simp

/-- Claim C8 as stated is false: with the header line present and a
subsequent line whose two space-separated tokens are both integer
literals (here `9223372036854775808 0`, the first being `2^63`), reading
does not succeed — the out-of-range coordinate makes `Point`
construction raise. -/
theorem claim_C8_counterexample :
    pyStrip ("#Life 1.06\n".toList) = headerChars ∧
    hasTwoIntTokens ("9223372036854775808 0\n".toList) = true ∧
    readLiveCellFile ["#Life 1.06\n".toList, "9223372036854775808 0\n".toList] =
      .error
        "X and Y coordinates must be within the 64-bit signed integer range." :=
  ⟨by decide, by decide, by rfl⟩

theorem claim_C8_witness :
    ∃ cells,
      readLiveCellFile ["#Life 1.06\n".toList, "1 2\n".toList,
          "1_2 3\n".toList] = .ok cells ∧
      (cells.map Cell.point).Nodup ∧
      ∀ q : Point, q ∈ cells.map Cell.point ↔
        ∃ line ∈ ["1 2\n".toList, "1_2 3\n".toList], parseLine line = .ok q :=
  (claim_C8_amended ("#Life 1.06\n".toList)
    ["1 2\n".toList, "1_2 3\n".toList] (by decide)).2.2
    (by decide) (by decide)

/-! ## Heap-model framing lemmas (claim C10) -/

theorem any_ext {α : Type} (l : List α) (p q : α → Bool)
    (h : ∀ a ∈ l, p a = q a) : l.any p = l.any q := by
  induction l with
  | nil => rfl
  | cons a l ih =>
    rw [List.any_cons, List.any_cons, h a (by simp),
      ih (fun b hb => h b (by simp [hb]))]

theorem find?_map_setFlag (l : List (Nat × Cell)) (i : Nat) (b : Option Bool)
    (j : Nat) :
    ((l.map (fun e => if e.1 = i then (e.1, (⟨e.2.point, b⟩ : Cell)) else e)).find?
      (fun e => e.1 == j)).map (fun e => e.2.point) =
    (l.find? (fun e => e.1 == j)).map (fun e => e.2.point) := by
  induction l with
  | nil => rfl
  | cons e t ih =>
    rw [List.map_cons]
    by_cases hi : e.1 = i
    · rw [if_pos hi]
      by_cases hj : e.1 = j
      · rw [List.find?_cons_of_pos _ (by simp [hj]),
          List.find?_cons_of_pos _ (by simp [hj])]
        rfl
      · rw [List.find?_cons_of_neg _ (by simp [hj]),
          List.find?_cons_of_neg _ (by simp [hj]), ih]
    · rw [if_neg hi]
      by_cases hj : e.1 = j
      · rw [List.find?_cons_of_pos _ (by simp [hj]),
          List.find?_cons_of_pos _ (by simp [hj])]
      · rw [List.find?_cons_of_neg _ (by simp [hj]),
          List.find?_cons_of_neg _ (by simp [hj]), ih]

theorem pointOfId_heapSetFlag (h : Heap) (i : Nat) (b : Option Bool) (j : Nat) :
    pointOfId (heapSetFlag h i b) j = pointOfId h j := by
  unfold pointOfId heapGet heapSetFlag
  rw [Option.map_map, Option.map_map]
  exact find?_map_setFlag h.cells i b j

theorem keys_heapSetFlag (h : Heap) (i : Nat) (b : Option Bool) :
    (heapSetFlag h i b).cells.map Prod.fst = h.cells.map Prod.fst := by
  unfold heapSetFlag
  rw [List.map_map]
  apply List.map_congr_left
  intro e _
  by_cases hi : e.1 = i <;> simp [hi]

theorem fresh_heapSetFlag (h : Heap) (i : Nat) (b : Option Bool) :
    (heapSetFlag h i b).fresh = h.fresh := rfl

theorem pointOfId_heapAlloc (h : Heap) (c : Cell) (j : Nat) (hj : j ≠ h.fresh) :
    pointOfId (heapAlloc h c).1 j = pointOfId h j := by
  unfold pointOfId heapGet heapAlloc
  rw [List.find?_append]
  cases hf : h.cells.find? (fun e => e.1 == j) with
  | some e => rfl
  | none =>
    rw [List.find?_cons_of_neg _ (by
        simp only [beq_iff_eq, decide_eq_true_eq]
        exact fun he => hj he.symm),
      List.find?_nil]
    rfl

theorem heapEvolves_refl (h : Heap) : heapEvolves h h :=
  ⟨le_refl _, id, fun _ _ => rfl⟩

theorem heapEvolves_trans {h1 h2 h3 : Heap} (a : heapEvolves h1 h2)
    (b : heapEvolves h2 h3) : heapEvolves h1 h3 :=
  ⟨le_trans a.1 b.1, fun w => b.2.1 (a.2.1 w),
    fun j hj => (b.2.2 j (lt_of_lt_of_le hj a.1)).trans (a.2.2 j hj)⟩

theorem heapEvolves_setFlag (h : Heap) (i : Nat) (b : Option Bool) :
    heapEvolves h (heapSetFlag h i b) := by
  refine ⟨le_of_eq (fresh_heapSetFlag h i b).symm, ?_,
    fun j _ => pointOfId_heapSetFlag h i b j⟩
  intro w e he
  unfold heapSetFlag at he
  simp only [List.mem_map] at he
  obtain ⟨e₀, he₀, rfl⟩ := he
  show (if e₀.1 = i then (e₀.1, (⟨e₀.2.point, b⟩ : Cell)) else e₀).1 <
    (heapSetFlag h i b).fresh
  rw [fresh_heapSetFlag]
  by_cases hi : e₀.1 = i
  · rw [if_pos hi]
    exact w e₀ he₀
  · rw [if_neg hi]
    exact w e₀ he₀

theorem heapEvolves_alloc (h : Heap) (c : Cell) :
    heapEvolves h (heapAlloc h c).1 := by
  refine ⟨Nat.le_succ _, ?_, ?_⟩
  · intro w e he
    show e.1 < h.fresh + 1
    rcases List.mem_append.mp he with hm | hm
    · exact lt_trans (w e hm) (Nat.lt_succ_self _)
    · rw [List.mem_singleton] at hm
      rw [hm]
      exact Nat.lt_succ_self _
  · intro j hj
    exact pointOfId_heapAlloc h c j (by omega)

theorem heapEvolves_foldl {α β : Type} (proj : β → Heap) (f : β → α → β)
    (hf : ∀ acc a, heapEvolves (proj acc) (proj (f acc a))) :
    ∀ (l : List α) (acc : β), heapEvolves (proj acc) (proj (l.foldl f acc)) := by
  intro l
  induction l with
  | nil => intro acc; exact heapEvolves_refl _
  | cons a l ih =>
    intro acc
    exact heapEvolves_trans (hf acc a) (ih (f acc a))

theorem heapEvolves_cngStepH (ids : List Nat) (acc : Heap × Tally) (i : Nat) :
    heapEvolves acc.1 (cngStepH ids acc i).1 := by
  unfold cngStepH
  cases hg : heapGet acc.1 i with
  | none => exact heapEvolves_refl _
  | some c => exact heapEvolves_setFlag _ _ _

theorem heapEvolves_setAddH (h : Heap) (ids : List Nat) (c : Cell) :
    heapEvolves h (setAddH h ids c).1 := by
  unfold setAddH
  by_cases hm : memLiveH h ids c.point = true
  · rw [if_pos hm]
    exact heapEvolves_refl h
  · rw [if_neg hm]
    exact heapEvolves_alloc h c

theorem heapEvolves_calculateNextGenH (h : Heap) (ids : List Nat) (t : Tally) :
    heapEvolves h (calculateNextGenH h ids t).1 :=
  heapEvolves_foldl Prod.fst (cngStepH ids)
    (fun acc a => heapEvolves_cngStepH ids acc a) ids (h, t)

theorem heapEvolves_createNewCellsH (h : Heap) (ids : List Nat) (t : Tally) :
    heapEvolves h (createNewCellsH h ids t).1 := by
  show heapEvolves h
    (((t.filter (fun e => e.2 == 3)).foldl
      (fun acc e =>
        let a := setAddH acc.1 acc.2 ⟨e.1, some true⟩
        (a.1, a.2))
      (h, ids)).1)
  exact heapEvolves_foldl Prod.fst _
    (fun acc e => heapEvolves_setAddH acc.1 acc.2 _)
    (t.filter (fun e => e.2 == 3)) (h, ids)

theorem heapEvolves_resetNextGenH (h : Heap) (ids : List Nat) :
    heapEvolves h (resetNextGenH h ids) :=
  heapEvolves_foldl id (fun hh i => heapSetFlag hh i none)
    (fun acc a => heapEvolves_setFlag acc a none) ids h

theorem heapEvolves_runNextGenerationH (h : Heap) (g : GameOfLifeH) :
    heapEvolves h (runNextGenerationH h g).1 := by
  show heapEvolves h
    (resetNextGenH
      (createNewCellsH (calculateNextGenH h g.liveCells g.deadCellNeighborCounts).1
        (removeDeadCellsH (calculateNextGenH h g.liveCells g.deadCellNeighborCounts).1
          g.liveCells)
        (calculateNextGenH h g.liveCells g.deadCellNeighborCounts).2).1
      (createNewCellsH (calculateNextGenH h g.liveCells g.deadCellNeighborCounts).1
        (removeDeadCellsH (calculateNextGenH h g.liveCells g.deadCellNeighborCounts).1
          g.liveCells)
        (calculateNextGenH h g.liveCells g.deadCellNeighborCounts).2).2.1)
  exact heapEvolves_trans
    (heapEvolves_calculateNextGenH h g.liveCells g.deadCellNeighborCounts)
    (heapEvolves_trans (heapEvolves_createNewCellsH _ _ _)
      (heapEvolves_resetNextGenH _ _))

theorem runGenerationsH_eq (h : Heap) (g : GameOfLifeH) :
    runGenerationsH h g =
      if g.currentGeneration < g.numOfGenerations then
        runGenerationsH (runNextGenerationH h g).1 (runNextGenerationH h g).2
      else (h, g) := by
  rw [runGenerationsH]

theorem heapEvolves_runGenerationsH :
    ∀ (m : Nat) (h : Heap) (g : GameOfLifeH),
      (g.numOfGenerations - g.currentGeneration).toNat = m →
      heapEvolves h (runGenerationsH h g).1 := by
  intro m
  induction m with
  | zero =>
    intro h g hm
    rw [runGenerationsH_eq, if_neg (by omega)]
    exact heapEvolves_refl h
  | succ k ih =>
    intro h g hm
    rw [runGenerationsH_eq, if_pos (by omega)]
    refine heapEvolves_trans (heapEvolves_runNextGenerationH h g) (ih _ _ ?_)
    have h1 : (runNextGenerationH h g).2.currentGeneration =
        g.currentGeneration + 1 := rfl
    have h2 : (runNextGenerationH h g).2.numOfGenerations =
        g.numOfGenerations := rfl
    omega

/-- Claim C10: the simulator never adds elements to or removes elements
from the set object the caller passed in.  In the heap model, the
constructor's shallow `copy()` gives the simulator its own id list (the
same object references); running any number of generations leaves every
caller-visible cell allocated with its point unchanged, so the caller's
set has exactly the same members (by point equality) as before the run —
all additions and removals touch only the simulator's own list. -/
theorem claim_C10 :
    ∀ (h : Heap) (callerIds : List Nat) (n : Int) (g : GameOfLifeH),
      (∀ e ∈ h.cells, e.1 < h.fresh) →
      (∀ i ∈ callerIds, i < h.fresh) →
      GameOfLifeH.init callerIds n = .ok g →
      g.liveCells = callerIds ∧
      (∀ i ∈ callerIds,
        pointOfId (runGenerationsH h g).1 i = pointOfId h i) ∧
      (∀ p : Point,
        memLiveH (runGenerationsH h g).1 callerIds p =
          memLiveH h callerIds p) := by
  intro h callerIds n g hwf hcall hinit
  unfold GameOfLifeH.init at hinit
  by_cases hn : n < 0
  · rw [if_pos hn] at hinit
    exact Except.noConfusion hinit
  · rw [if_neg hn] at hinit
    have hg := Except.ok.inj hinit
    have hlive : g.liveCells = callerIds := by rw [← hg]
    have hev := heapEvolves_runGenerationsH
      ((g.numOfGenerations - g.currentGeneration).toNat) h g rfl
    refine ⟨hlive, fun i hi => hev.2.2 i (hcall i hi), fun p => ?_⟩
    unfold memLiveH
    refine any_ext callerIds _ _ (fun i hi => ?_)
    rw [hev.2.2 i (hcall i hi)]

theorem claim_C10_witness :
    ({ liveCells := [0], deadCellNeighborCounts := [], numOfGenerations := 1,
       currentGeneration := 0 } : GameOfLifeH).liveCells = [0] ∧
    (∀ i ∈ [0],
      pointOfId (runGenerationsH ⟨[(0, ⟨⟨0, 0⟩, none⟩)], 1⟩
        { liveCells := [0], deadCellNeighborCounts := [],
          numOfGenerations := 1, currentGeneration := 0 }).1 i =
      pointOfId ⟨[(0, ⟨⟨0, 0⟩, none⟩)], 1⟩ i) ∧
    (∀ p : Point,
      memLiveH (runGenerationsH ⟨[(0, ⟨⟨0, 0⟩, none⟩)], 1⟩
        { liveCells := [0], deadCellNeighborCounts := [],
          numOfGenerations := 1, currentGeneration := 0 }).1 [0] p =
      memLiveH ⟨[(0, ⟨⟨0, 0⟩, none⟩)], 1⟩ [0] p) :=
  claim_C10 ⟨[(0, ⟨⟨0, 0⟩, none⟩)], 1⟩ [0] 1 _ (by decide) (by decide) rfl
